import Mathlib

/-!
Shallow embedding of the `elu` crate: an EVAL-LINK-UPDATE forest with path
compression on evaluation (`src/forest.rs`, `src/node.rs`, `src/lib.rs`),
together with a reference model that never compresses, and proofs about the
specification claims.

The associative operation abstraction (`src/operation.rs`) is embedded as a
function `op : V → V → Except E V` mirroring
`fn associate(lhs: &V, rhs: &V) -> Result<V, Self::Error>`.
Recursion in `compress` is bounded by an explicit `fuel` parameter; a `none`
result models a computation that either exhausts the fuel (the Rust code
recursing forever) or panics (out-of-range index, `unwrap` of a root's
parent), neither of which happens on well-formed input with enough fuel.
-/

/-- Mirror of `Node` in `src/node.rs`: an optional parent index and a value.
`parent = none` means the node is a tree root. -/
structure Node (V : Type) where
  parent : Option Nat
  value : V
deriving DecidableEq, Repr

/-- The node storage of `CompressedForest` (`nodes: Vec<Node<V>>`). -/
abbrev Forest (V : Type) := List (Node V)

/-- Mirror of `CompressedForest::compress` (`src/forest.rs` lines 96-118).
The forest is threaded through errors because in Rust the mutations performed
before a `?` early return persist in `self.nodes`. -/
def compress {V E : Type} (op : V → V → Except E V) :
    Nat → Forest V → Nat → Option (Forest V × Except E Unit)
  | 0, _, _ => none
  | fuel + 1, nodes, key =>
    match nodes[key]? with
    | none => none
    | some current =>
      match current.parent with
      | none => none
      | some parentKey =>
        match nodes[parentKey]? with
        | none => none
        | some parent =>
          if parent.parent.isNone then
            some (nodes, Except.ok ())
          else
            match compress op fuel nodes parentKey with
            | none => none
            | some (nodes₁, Except.error e) => some (nodes₁, Except.error e)
            | some (nodes₁, Except.ok ()) =>
              match nodes₁[key]?, nodes₁[parentKey]? with
              | some current₁, some parent₁ =>
                match parent₁.parent with
                | none => none
                | some parentParent =>
                  match op parent₁.value current₁.value with
                  | Except.error e => some (nodes₁, Except.error e)
                  | Except.ok merged =>
                    some (nodes₁.set key ⟨some parentParent, merged⟩, Except.ok ())
              | _, _ => none

/-- Mirror of `CompressedForest::new_root` (`src/forest.rs` lines 130-135):
push a parentless node, return the index it was stored at (the old length). -/
def newRoot {V : Type} (nodes : Forest V) (value : V) : Forest V × Nat :=
  (nodes ++ [⟨none, value⟩], nodes.length)

/-- The root-locating step of `try_link` (`src/forest.rs` lines 141-153):
`if nodes[id].is_root() { id } else { self.compress(id)?; nodes[id].parent().unwrap() }`,
appearing once for `id_a` and once for `id_b`. -/
def linkRoot {V E : Type} (op : V → V → Except E V) (fuel : Nat) (nodes : Forest V)
    (id : Nat) : Option (Forest V × Except E Nat) :=
  match nodes[id]? with
  | none => none
  | some node =>
    if node.parent.isNone then some (nodes, Except.ok id)
    else
      match compress op fuel nodes id with
      | none => none
      | some (nodes₁, Except.error e) => some (nodes₁, Except.error e)
      | some (nodes₁, Except.ok ()) =>
        match nodes₁[id]? with
        | none => none
        | some node₁ =>
          match node₁.parent with
          | none => none
          | some r => some (nodes₁, Except.ok r)

/-- Mirror of `CompressedForest::try_link` (`src/forest.rs` lines 137-164).
Note the source order: `set_parent(root_a_key)` on `root_b_key` happens before
the compensation `associate`, whose error is propagated by `?`. -/
def tryLink {V E : Type} (op : V → V → Except E V) (fuel : Nat) (nodes : Forest V)
    (idA idB : Nat) : Option (Forest V × Except E Unit) :=
  match linkRoot op fuel nodes idA with
  | none => none
  | some (n₁, Except.error e) => some (n₁, Except.error e)
  | some (n₁, Except.ok rootAKey) =>
    match linkRoot op fuel n₁ idB with
    | none => none
    | some (n₂, Except.error e) => some (n₂, Except.error e)
    | some (n₂, Except.ok rootBKey) =>
      match n₂[rootBKey]? with
      | none => none
      | some nodeB =>
        let n₃ := n₂.set rootBKey ⟨some rootAKey, nodeB.value⟩
        if rootAKey = idA then some (n₃, Except.ok ())
        else
          match n₃[idA]?, n₃[rootBKey]? with
          | some nodeA, some nodeB₃ =>
            match op nodeA.value nodeB₃.value with
            | Except.error e => some (n₃, Except.error e)
            | Except.ok newValue =>
              some (n₃.set rootBKey ⟨nodeB₃.parent, newValue⟩, Except.ok ())
          | _, _ => none

/-- Mirror of `CompressedForest::try_update` (`src/forest.rs` lines 166-181). -/
def tryUpdate {V E : Type} (op : V → V → Except E V) (fuel : Nat) (nodes : Forest V)
    (id : Nat) (value : V) : Option (Forest V × Except E Unit) :=
  match nodes[id]? with
  | none => none
  | some node =>
    if node.parent.isNone then some (nodes.set id ⟨node.parent, value⟩, Except.ok ())
    else
      match compress op fuel nodes id with
      | none => none
      | some (n₁, Except.error e) => some (n₁, Except.error e)
      | some (n₁, Except.ok ()) =>
        match n₁[id]? with
        | none => none
        | some node₁ =>
          match node₁.parent with
          | none => none
          | some parentKey =>
            match n₁[parentKey]? with
            | none => none
            | some parent =>
              some (n₁.set parentKey ⟨parent.parent, value⟩, Except.ok ())

/-- Mirror of `CompressedForest::try_eval` (`src/forest.rs` lines 183-199). -/
def tryEval {V E : Type} (op : V → V → Except E V) (fuel : Nat) (nodes : Forest V)
    (id : Nat) : Option (Forest V × Except E V) :=
  match nodes[id]? with
  | none => none
  | some node =>
    match (if node.parent.isNone then some (nodes, Except.ok ())
           else compress op fuel nodes id) with
    | none => none
    | some (n₁, Except.error e) => some (n₁, Except.error e)
    | some (n₁, Except.ok ()) =>
      match n₁[id]? with
      | none => none
      | some node₁ =>
        match node₁.parent with
        | none => some (n₁, Except.ok node₁.value)
        | some parentKey =>
          match n₁[parentKey]? with
          | none => none
          | some parent => some (n₁, op parent.value node₁.value)

/-- Iterate parent pointers `j` times from `n`, failing if a root or an
out-of-range index is hit on the way.  Used to speak about the parent chains
of a forest directly. -/
def iterParent {V : Type} (F : Forest V) : Nat → Nat → Option Nat
  | n, 0 => some n
  | n, j + 1 =>
    match F[n]? with
    | none => none
    | some node =>
      match node.parent with
      | none => none
      | some p => iterParent F p j

/-- Mirror of the unwrapping convenience form `EvalLinkUpdate::eval`
(`src/lib.rs` lines 42-48), available when the combinator error type is
`Infallible` (embedded as `Empty`): the `.unwrap()` cannot panic. -/
def evalInfallible {V : Type} (op : V → V → Except Empty V) (fuel : Nat)
    (nodes : Forest V) (id : Nat) : Option (Forest V × V) :=
  match tryEval op fuel nodes id with
  | none => none
  | some (n₁, Except.ok v) => some (n₁, v)
  | some (_, Except.error e) => e.elim

/-- Mirror of the unwrapping convenience form `EvalLinkUpdate::link`
(`src/lib.rs` lines 58-65). -/
def linkInfallible {V : Type} (op : V → V → Except Empty V) (fuel : Nat)
    (nodes : Forest V) (idA idB : Nat) : Option (Forest V) :=
  match tryLink op fuel nodes idA idB with
  | none => none
  | some (n₁, Except.ok ()) => some n₁
  | some (_, Except.error e) => e.elim

/-- Mirror of the unwrapping convenience form `EvalLinkUpdate::update`
(`src/lib.rs` lines 75-82). -/
def updateInfallible {V : Type} (op : V → V → Except Empty V) (fuel : Nat)
    (nodes : Forest V) (id : Nat) (value : V) : Option (Forest V) :=
  match tryUpdate op fuel nodes id value with
  | none => none
  | some (n₁, Except.ok ()) => some n₁
  | some (_, Except.error e) => e.elim

/-! ## Reference model

The spec describes `eval` as the left-to-right ⊕-fold of the original values
on the path from the root of a node's tree down to the node, in a structure
where `link(a, b)` conceptually attaches the root of `b`'s tree directly at
the node `a` and `update` overwrites the root's value.  The following model
records, for every node, its current root, the root's current value, and the
list of original values strictly below the root on the conceptual path down
to the node.  It never compresses: the ops below rewrite it exactly as the
spec's conceptual description demands. -/

/-- Reference model state, following the spec's words: `root n` is the root of
`n`'s tree, `rvals r` the value currently held at a root `r`, and `path n`
the original values on the conceptual path from (strictly below) the root
down to and including `n` (empty iff `n` is a root). -/
structure Model (V : Type) where
  root : Nat → Nat
  rvals : Nat → V
  path : Nat → List V

/-- Reference semantics of `new_root v` issued at index `n`: the new node is
its own root with value `v`; nothing else changes. -/
def addRootModel {V : Type} (M : Model V) (n : Nat) (v : V) : Model V :=
  { M with rvals := fun m => if m = n then v else M.rvals m }

/-- Reference semantics of `update(id, v)`: the value at the root of `id`'s
tree becomes `v`. -/
def updModel {V : Type} (M : Model V) (id : Nat) (v : V) : Model V :=
  { M with rvals := fun m => if m = M.root id then v else M.rvals m }

/-- Reference semantics of `link(a, b)` for nodes in distinct trees: the root
`rb` of `b`'s tree is conceptually attached directly at the node `a`, so every
node of `b`'s tree now lives in `a`'s tree and its conceptual path gets
prefixed with the path down to `a` followed by the original value of `rb`. -/
def linkModel {V : Type} (M : Model V) (a b : Nat) : Model V :=
  { root := fun m => if M.root m = M.root b then M.root a else M.root m
    rvals := M.rvals
    path := fun m =>
      if M.root m = M.root b then M.path a ++ M.rvals (M.root b) :: M.path m
      else M.path m }

/-- The fold the spec assigns to `eval(n)`: the left-to-right (possibly
failing) ⊕-fold of the root's current value followed by the original values
on the conceptual path down to `n`. -/
def pathFoldM {V E : Type} (op : V → V → Except E V) (M : Model V) (n : Nat) :
    Except E V :=
  List.foldlM op (M.rvals (M.root n)) (M.path n)

/-- Mathematical associativity of a fallible combinator, in the strong monadic
form: the spec demands `associate(associate(a,b),c) = associate(a,associate(b,c))`
whenever defined, and the standard combinators satisfy this equation of
`Except` values outright. -/
def AssocM {V E : Type} (op : V → V → Except E V) : Prop :=
  ∀ a b c : V, (op a b >>= fun x => op x c) = (op b c >>= fun y => op a y)

/-- The compression invariant exactly as the spec words it: for any node `n`
whose parent pointer currently points directly at a root `r`,
`associate(value(r), value(n))` equals the true fold of original values along
the entire conceptual path from `r` down to `n`. -/
def SpecInv {V E : Type} (op : V → V → Except E V) (F : Forest V) (M : Model V) :
    Prop :=
  ∀ n node p pnode, F[n]? = some node → node.parent = some p →
    F[p]? = some pnode → pnode.parent = none →
    op pnode.value node.value = pathFoldM op M n

/-- The full invariant relating a concrete forest to the reference model:
roots coincide and hold the model's root values; every non-root node's parent
pointer designates a conceptual ancestor (its model path is a proper front
segment of the node's path) and its stored value is the defined left-to-right
fold of the remaining segment of original values. -/
structure ForestInv {V E : Type} (op : V → V → Except E V) (F : Forest V) (M : Model V) :
    Prop where
  outRoot : ∀ m, F.length ≤ m → M.root m = m
  outPath : ∀ m, F.length ≤ m → M.path m = []
  rootLt : ∀ n, n < F.length → M.root n < F.length
  rootIdem : ∀ n, M.root (M.root n) = M.root n
  rootPath : ∀ n, M.path (M.root n) = []
  rootCorr : ∀ n node, F[n]? = some node → (node.parent = none ↔ M.root n = n)
  rootVal : ∀ n node, F[n]? = some node → node.parent = none →
    node.value = M.rvals n ∧ M.path n = []
  nonRoot : ∀ n node p, F[n]? = some node → node.parent = some p →
    p < F.length ∧ M.root p = M.root n ∧
    ∃ h t, M.path n = M.path p ++ h :: t ∧ List.foldlM op h t = Except.ok node.value

/-- A forest/model pair reachable from the empty forest by `new_root`, by
`try_link` applied to nodes of distinct trees that returns `Ok`, by
`try_update`, and by `try_eval` (the last two whether they succeed or fail:
their partial compressions keep the model unchanged). -/
inductive Built {V E : Type} (op : V → V → Except E V) : Forest V → Model V → Prop
  | empty (rv : Nat → V) : Built op [] ⟨fun n => n, rv, fun _ => []⟩
  | newroot {F : Forest V} {M : Model V} (v : V) : Built op F M →
      Built op (newRoot F v).1 (addRootModel M F.length v)
  | link {F F' : Forest V} {M : Model V} {a b fuel : Nat} : Built op F M →
      a < F.length → b < F.length → M.root a ≠ M.root b →
      tryLink op fuel F a b = some (F', Except.ok ()) →
      Built op F' (linkModel M a b)
  | updateOk {F F' : Forest V} {M : Model V} {id fuel : Nat} {v : V} :
      Built op F M → tryUpdate op fuel F id v = some (F', Except.ok ()) →
      Built op F' (updModel M id v)
  | updateErr {F F' : Forest V} {M : Model V} {id fuel : Nat} {v : V} {e : E} :
      Built op F M → tryUpdate op fuel F id v = some (F', Except.error e) →
      Built op F' M
  | evalOk {F F' : Forest V} {M : Model V} {id fuel : Nat} {v : V} :
      Built op F M → tryEval op fuel F id = some (F', Except.ok v) →
      Built op F' M
  | evalErr {F F' : Forest V} {M : Model V} {id fuel : Nat} {e : E} :
      Built op F M → tryEval op fuel F id = some (F', Except.error e) →
      Built op F' M

/-! ## Concrete instances used in the claims below -/

/-- Embedding of the `CloneAdd` standard operation at `V = usize`
(`src/operation.rs`): infallible addition, error type `Infallible = Empty`. -/
def addOp : Nat → Nat → Except Empty Nat := fun a b => Except.ok (a + b)

/-- A fallible, mathematically associative combinator: addition that fails
with a unit error whenever the running sum exceeds 8 (a checked-add
`AssociativeOperation` instance with a small overflow bound). -/
def cadd8 : Nat → Nat → Except Unit Nat := fun a b =>
  if a + b ≤ 8 then Except.ok (a + b) else Except.error ()

/-- The concrete forest reached by the operation sequence `new_root 3`,
`new_root 4`, `link(0, 1)`, `new_root 5` under the capped-add combinator. -/
def cexForest : Forest Nat := [⟨none, 3⟩, ⟨some 0, 4⟩, ⟨none, 5⟩]

/-- The reference model accompanying `cexForest` along the same operation
sequence. -/
def cexModel : Model Nat :=
  addRootModel (linkModel (addRootModel (addRootModel
    ⟨fun n => n, fun _ => 0, fun _ => []⟩ 0 3) 1 4) 0 1) 2 5

/-! ## Basic lemmas about `Except` folds and list indexing -/

theorem okBind {V E A : Type} (a : V) (f : V → Except E A) :
    (Except.ok a >>= f) = f a := rfl

theorem errBind {V E A : Type} (e : E) (f : V → Except E A) :
    ((Except.error e : Except E V) >>= f) = Except.error e := rfl

theorem get?_lt {V : Type} {l : List V} {i : Nat} {x : V} (h : l[i]? = some x) :
    i < l.length := (List.getElem?_eq_some.mp h).1

theorem get?_set_self {V : Type} {l : List V} {i : Nat} (x : V) (h : i < l.length) :
    (l.set i x)[i]? = some x := List.getElem?_set_eq_of_lt x h

theorem get?_set_ne {V : Type} (l : List V) {i j : Nat} (x : V) (h : i ≠ j) :
    (l.set i x)[j]? = l[j]? := List.getElem?_set_ne h

/-- Under strong monadic associativity, folding from a seed `a` over `h :: t`
is the fold of `h :: t` alone combined on the left with `a`. -/
theorem foldlM_shift {V E : Type} {op : V → V → Except E V} (hop : AssocM op) :
    ∀ (t : List V) (h a : V),
      (List.foldlM op h t >>= fun b => op a b) = List.foldlM op a (h :: t) := by
  intro t
  induction t with
  | nil =>
    intro h a
    simp [List.foldlM_cons, List.foldlM_nil]
  | cons c t ih =>
    intro h a
    calc (List.foldlM op h (c :: t) >>= fun b => op a b)
        = ((op h c >>= fun x => List.foldlM op x t) >>= fun b => op a b) := by
          simp [List.foldlM_cons]
      _ = (op h c >>= fun x => (List.foldlM op x t >>= fun b => op a b)) := by
          rw [bind_assoc]
      _ = (op h c >>= fun x => List.foldlM op a (x :: t)) :=
          bind_congr fun x => ih x a
      _ = (op h c >>= fun x => (op a x >>= fun w => List.foldlM op w t)) := by
          simp [List.foldlM_cons]
      _ = ((op h c >>= fun x => op a x) >>= fun w => List.foldlM op w t) := by
          rw [bind_assoc]
      _ = ((op a h >>= fun x => op x c) >>= fun w => List.foldlM op w t) := by
          rw [← hop a h c]
      _ = (op a h >>= fun x => (op x c >>= fun w => List.foldlM op w t)) := by
          rw [bind_assoc]
      _ = List.foldlM op a (h :: c :: t) := by
          simp [List.foldlM_cons]

/-- If the fold of a front segment is defined, extending the segment on the
right just continues the fold from its value. -/
theorem foldlM_front {V E : Type} {op : V → V → Except E V} {h1 : V} {t1 : List V}
    {w : V} (hfold : List.foldlM op h1 t1 = Except.ok w) (rest : List V) :
    List.foldlM op h1 (t1 ++ rest) = List.foldlM op w rest := by
  rw [List.foldlM_append, hfold, okBind]

/-- If the fold of a front segment fails, folding any extension fails the same
way. -/
theorem foldlM_front_err {V E : Type} {op : V → V → Except E V} {h1 : V}
    {t1 : List V} {e : E} (hfold : List.foldlM op h1 t1 = Except.error e)
    (rest : List V) :
    List.foldlM op h1 (t1 ++ rest) = Except.error e := by
  rw [List.foldlM_append, hfold, errBind]

/-- A failing fold exhibits a failing combinator invocation. -/
theorem foldlM_err_exists {V E : Type} {op : V → V → Except E V} :
    ∀ {t : List V} {h : V} {e : E}, List.foldlM op h t = Except.error e →
      ∃ x y, op x y = Except.error e := by
  intro t
  induction t with
  | nil =>
    intro h e hfold
    rw [List.foldlM_nil] at hfold
    cases hfold
  | cons c t ih =>
    intro h e hfold
    rw [List.foldlM_cons] at hfold
    cases hstep : op h c with
    | error e₁ =>
      rw [hstep, errBind] at hfold
      injection hfold with he
      exact ⟨h, c, he ▸ hstep⟩
    | ok x =>
      rw [hstep, okBind] at hfold
      exact ih hfold

theorem get?_is_some {V : Type} {l : List V} {i : Nat} (h : i < l.length) :
    ∃ x, l[i]? = some x := ⟨l[i], (List.getElem?_eq_some).2 ⟨h, rfl⟩⟩

/-- Rewriting a non-root node to point at a conceptual ancestor `q` while
storing the defined fold of the remaining segment preserves the invariant. -/
theorem inv_set_nonroot {V E : Type} {op : V → V → Except E V} {F : Forest V}
    {M : Model V} {k q : Nat} {w : V} (hInv : ForestInv op F M)
    (hk : k < F.length) (hknr : M.root k ≠ k) (hq : q < F.length)
    (hroot : M.root q = M.root k)
    (hseg : ∃ h t, M.path k = M.path q ++ h :: t ∧ List.foldlM op h t = Except.ok w) :
    ForestInv op (F.set k ⟨some q, w⟩) M := by
  have hlen : (F.set k (⟨some q, w⟩ : Node V)).length = F.length := by simp
  refine ⟨?_, ?_, ?_, hInv.rootIdem, hInv.rootPath, ?_, ?_, ?_⟩
  · intro m hm; exact hInv.outRoot m (by omega)
  · intro m hm; exact hInv.outPath m (by omega)
  · intro n hn; rw [hlen]; exact hInv.rootLt n (by omega)
  · intro n node hget
    by_cases hnk : n = k
    · subst hnk
      rw [get?_set_self _ hk] at hget
      injection hget with hnode
      subst hnode
      simp only []
      constructor
      · intro hpar; exact absurd hpar (by simp)
      · intro hr; exact absurd hr hknr
    · rw [get?_set_ne _ _ (fun h => hnk h.symm)] at hget
      exact hInv.rootCorr n node hget
  · intro n node hget hpar
    by_cases hnk : n = k
    · subst hnk
      rw [get?_set_self _ hk] at hget
      injection hget with hnode
      subst hnode
      exact absurd hpar (by simp)
    · rw [get?_set_ne _ _ (fun h => hnk h.symm)] at hget
      exact hInv.rootVal n node hget hpar
  · intro n node p hget hpar
    by_cases hnk : n = k
    · subst hnk
      rw [get?_set_self _ hk] at hget
      injection hget with hnode
      subst hnode
      have hp : p = q := by
        simpa using hpar.symm
      subst hp
      exact ⟨by omega, hroot, hseg⟩
    · rw [get?_set_ne _ _ (fun h => hnk h.symm)] at hget
      obtain ⟨h1, h2, h3⟩ := hInv.nonRoot n node p hget hpar
      exact ⟨by omega, h2, h3⟩

/-- Overwriting the value stored at a root `r` preserves the invariant with
the model's root value at `r` updated accordingly. -/
theorem inv_set_rootval {V E : Type} {op : V → V → Except E V} {F : Forest V}
    {M : Model V} {r : Nat} {v : V} (hInv : ForestInv op F M)
    (hr : M.root r = r) (hrlt : r < F.length) :
    ForestInv op (F.set r ⟨none, v⟩)
      { M with rvals := fun m => if m = r then v else M.rvals m } := by
  have hlen : (F.set r (⟨none, v⟩ : Node V)).length = F.length := by simp
  refine ⟨?_, ?_, ?_, hInv.rootIdem, hInv.rootPath, ?_, ?_, ?_⟩
  · intro m hm; exact hInv.outRoot m (by omega)
  · intro m hm; exact hInv.outPath m (by omega)
  · intro n hn; rw [hlen]; exact hInv.rootLt n (by omega)
  · intro n node hget
    by_cases hnr : n = r
    · rw [hnr] at hget ⊢
      rw [get?_set_self _ hrlt] at hget
      injection hget with hnode
      subst hnode
      simp [hr]
    · rw [get?_set_ne _ _ (fun h => hnr h.symm)] at hget
      exact hInv.rootCorr n node hget
  · intro n node hget hpar
    by_cases hnr : n = r
    · rw [hnr] at hget ⊢
      rw [get?_set_self _ hrlt] at hget
      injection hget with hnode
      subst hnode
      refine ⟨by simp, ?_⟩
      have h2 := hInv.rootPath r
      rw [hr] at h2
      simpa using h2
    · rw [get?_set_ne _ _ (fun h => hnr h.symm)] at hget
      obtain ⟨hv, hp⟩ := hInv.rootVal n node hget hpar
      refine ⟨?_, hp⟩
      rw [hv]
      show M.rvals n = if n = r then v else M.rvals n
      rw [if_neg hnr]
  · intro n node p hget hpar
    by_cases hnr : n = r
    · rw [hnr] at hget
      rw [get?_set_self _ hrlt] at hget
      injection hget with hnode
      subst hnode
      exact absurd hpar (by simp)
    · rw [get?_set_ne _ _ (fun h => hnr h.symm)] at hget
      obtain ⟨h1, h2, h3⟩ := hInv.nonRoot n node p hget hpar
      exact ⟨by omega, h2, h3⟩

/-- Appending a fresh parentless node preserves the invariant, recording the
new root's value in the model. -/
theorem inv_newRoot {V E : Type} {op : V → V → Except E V} {F : Forest V}
    {M : Model V} (hInv : ForestInv op F M) (v : V) :
    ForestInv op (newRoot F v).1 (addRootModel M F.length v) := by
  have hlen : (newRoot F v).1.length = F.length + 1 := by simp [newRoot]
  have hgetNew : (newRoot F v).1[F.length]? = some ⟨none, v⟩ := by
    simp only [newRoot]
    rw [List.getElem?_append_right (Nat.le_refl _)]
    simp
  have hgetOld : ∀ i, i < F.length → (newRoot F v).1[i]? = F[i]? := by
    intro i hi
    simp only [newRoot]
    exact List.getElem?_append_left hi
  refine ⟨?_, ?_, ?_, hInv.rootIdem, hInv.rootPath, ?_, ?_, ?_⟩
  · intro m hm; exact hInv.outRoot m (by rw [hlen] at hm; omega)
  · intro m hm; exact hInv.outPath m (by rw [hlen] at hm; omega)
  · intro n hn
    rw [hlen] at hn
    show M.root n < (newRoot F v).1.length
    rw [hlen]
    rcases Nat.lt_or_ge n F.length with h | h
    · exact Nat.lt_succ_of_lt (hInv.rootLt n h)
    · rw [hInv.outRoot n h]; exact hn
  · intro n node hget
    rcases Nat.lt_or_ge n F.length with h | h
    · rw [hgetOld n h] at hget
      exact hInv.rootCorr n node hget
    · have hn : n = F.length := by
        by_contra hne
        have hge : (newRoot F v).1.length ≤ n := by rw [hlen]; omega
        rw [List.getElem?_eq_none hge] at hget
        exact Option.noConfusion hget
      subst hn
      rw [hgetNew] at hget
      injection hget with hnode
      subst hnode
      have hroot := hInv.outRoot F.length (Nat.le_refl _)
      simp [addRootModel, hroot]
  · intro n node hget hpar
    rcases Nat.lt_or_ge n F.length with h | h
    · rw [hgetOld n h] at hget
      obtain ⟨hv, hp⟩ := hInv.rootVal n node hget hpar
      refine ⟨?_, hp⟩
      rw [hv]
      show M.rvals n = if n = F.length then v else M.rvals n
      rw [if_neg (by omega)]
    · have hn : n = F.length := by
        by_contra hne
        have hge : (newRoot F v).1.length ≤ n := by rw [hlen]; omega
        rw [List.getElem?_eq_none hge] at hget
        exact Option.noConfusion hget
      subst hn
      rw [hgetNew] at hget
      injection hget with hnode
      subst hnode
      refine ⟨by simp [addRootModel], ?_⟩
      exact hInv.outPath F.length (Nat.le_refl _)
  · intro n node p hget hpar
    rcases Nat.lt_or_ge n F.length with h | h
    · rw [hgetOld n h] at hget
      obtain ⟨h1, h2, h3⟩ := hInv.nonRoot n node p hget hpar
      refine ⟨?_, h2, h3⟩
      rw [hlen]
      omega
    · have hn : n = F.length := by
        by_contra hne
        have hge : (newRoot F v).1.length ≤ n := by rw [hlen]; omega
        rw [List.getElem?_eq_none hge] at hget
        exact Option.noConfusion hget
      subst hn
      rw [hgetNew] at hget
      injection hget with hnode
      subst hnode
      exact absurd hpar (by simp)

/-- The empty forest satisfies the invariant against the identity model. -/
theorem inv_empty {V E : Type} (op : V → V → Except E V) (rv : Nat → V) :
    ForestInv op ([] : Forest V) ⟨fun n => n, rv, fun _ => []⟩ := by
  refine ⟨fun m _ => rfl, fun m _ => rfl, ?_, fun n => rfl, fun n => rfl, ?_, ?_, ?_⟩
  · intro n hn; simp at hn
  · intro n node hget; simp at hget
  · intro n node hget; simp at hget
  · intro n node p hget; simp at hget

/-- Soundness of `compress`: whenever it returns, the invariant is preserved
with the same model; only nodes of the same tree at most as deep as the
argument are modified; success leaves the argument pointing directly at its
root and storing the defined fold of its whole path segment; failure leaves
the argument's record untouched and is exactly the failure of the argument's
left-to-right path fold; and re-running on the resulting forest returns the
same forest and the same result. -/
theorem compress_spec {V E : Type} {op : V → V → Except E V} (hop : AssocM op) :
    ∀ (fuel : Nat) (F : Forest V) (M : Model V) (k : Nat) (F' : Forest V)
      (res : Except E Unit), ForestInv op F M →
      compress op fuel F k = some (F', res) →
      F'.length = F.length ∧ ForestInv op F' M ∧
      (∀ m, F'[m]? ≠ F[m]? →
        M.root m = M.root k ∧ (M.path m).length ≤ (M.path k).length) ∧
      (res = Except.ok () →
        ∃ w, F'[k]? = some ⟨some (M.root k), w⟩ ∧
          ∃ h t, M.path k = h :: t ∧ List.foldlM op h t = Except.ok w) ∧
      (∀ e, res = Except.error e → F'[k]? = F[k]? ∧
        ∃ h t, M.path k = h :: t ∧ List.foldlM op h t = Except.error e) ∧
      (∀ fuel₂, fuel ≤ fuel₂ → compress op fuel₂ F' k = some (F', res)) := by
  intro fuel
  induction fuel with
  | zero =>
    intro F M k F' res hInv h
    simp [compress] at h
  | succ fuel ih =>
    intro F M k F' res hInv h
    cases hk : F[k]? with
    | none => simp [compress, hk] at h
    | some current =>
      cases hcp : current.parent with
      | none => simp [compress, hk, hcp] at h
      | some parentKey =>
        cases hp : F[parentKey]? with
        | none => simp [compress, hk, hcp, hp] at h
        | some parent =>
          have hklt : k < F.length := get?_lt hk
          have hknr : M.root k ≠ k := by
            intro hr
            have hnone := (hInv.rootCorr k current hk).2 hr
            rw [hnone] at hcp
            exact Option.noConfusion hcp
          obtain ⟨hpklt, hrootpk, sh, st, hpath, hfold⟩ :=
            hInv.nonRoot k current parentKey hk hcp
          cases hpp : parent.parent with
          | none =>
            simp only [compress, hk, hcp, hp, hpp, Option.isNone_none, if_true] at h
            rw [Option.some_inj, Prod.mk.injEq] at h
            obtain ⟨hF, hres⟩ := h
            subst hres
            have hpkroot : M.root parentKey = parentKey :=
              (hInv.rootCorr parentKey parent hp).1 hpp
            have hrk : parentKey = M.root k := by rw [← hrootpk, hpkroot]
            have hppath : M.path parentKey = [] := by
              have h2 := hInv.rootPath parentKey
              rw [hpkroot] at h2
              exact h2
            have hpathk : M.path k = sh :: st := by
              rw [hpath, hppath, List.nil_append]
            have hcur : current = ⟨some (M.root k), current.value⟩ := by
              cases current with
              | mk cp cv =>
                have hcpv : cp = some parentKey := hcp
                rw [hcpv, hrk]
            subst hF
            refine ⟨rfl, hInv, ?_, ?_, ?_, ?_⟩
            · intro m hm; exact absurd rfl hm
            · intro _
              refine ⟨current.value, ?_, sh, st, hpathk, hfold⟩
              rw [hk]
              exact congrArg some hcur
            · intro e he; exact Except.noConfusion he
            · intro fuel₂ hf₂
              cases fuel₂ with
              | zero => omega
              | succ f₂ => simp [compress, hk, hcp, hp, hpp]
          | some grand =>
            cases hrec : compress op fuel F parentKey with
            | none =>
              simp only [compress, hk, hcp, hp, hpp, Option.isNone_some,
                Bool.false_eq_true, if_false, hrec] at h
              exact Option.noConfusion h
            | some pr =>
              obtain ⟨F₁, res₁⟩ := pr
              obtain ⟨hlen₁, hInv₁, hframe₁, hok₁, herr₁, hrerun₁⟩ :=
                ih F M parentKey F₁ res₁ hInv hrec
              have hlt : (M.path parentKey).length < (M.path k).length := by
                rw [hpath]; simp
              have hgk₁ : F₁[k]? = some current := by
                by_cases hch : F₁[k]? = F[k]?
                · rw [hch, hk]
                · obtain ⟨_, hle⟩ := hframe₁ k hch
                  omega
              cases res₁ with
              | error e =>
                simp only [compress, hk, hcp, hp, hpp, Option.isNone_some,
                  Bool.false_eq_true, if_false, hrec] at h
                rw [Option.some_inj, Prod.mk.injEq] at h
                obtain ⟨hF, hres⟩ := h
                subst hres
                subst hF
                obtain ⟨hpkun, ph, pt, hppathd, hpfolde⟩ := herr₁ e rfl
                have hpathk : M.path k = ph :: (pt ++ sh :: st) := by
                  rw [hpath, hppathd]; rfl
                have hgp' : F₁[parentKey]? = some parent := by
                  rw [hpkun, hp]
                refine ⟨hlen₁, hInv₁, ?_, ?_, ?_, ?_⟩
                · intro m hm
                  obtain ⟨hr, hl⟩ := hframe₁ m hm
                  exact ⟨hr.trans hrootpk, by omega⟩
                · intro he; exact Except.noConfusion he
                · intro e₂ he
                  injection he with hee
                  subst hee
                  refine ⟨hgk₁, ph, pt ++ sh :: st, hpathk, ?_⟩
                  exact foldlM_front_err hpfolde _
                · intro fuel₂ hf₂
                  cases fuel₂ with
                  | zero => omega
                  | succ f₂ =>
                    simp [compress, hgk₁, hcp, hgp', hpp, hrerun₁ f₂ (by omega)]
              | ok u =>
                cases u
                obtain ⟨w₁, hgp₁, ph, pt, hppathd, hpfold⟩ := hok₁ rfl
                rw [hrootpk] at hgp₁
                simp only [compress, hk, hcp, hp, hpp, Option.isNone_some,
                  Bool.false_eq_true, if_false, hrec, hgk₁, hgp₁] at h
                have hpathk : M.path k = ph :: (pt ++ sh :: st) := by
                  rw [hpath, hppathd]; rfl
                have hfold4 : List.foldlM op ph (pt ++ sh :: st) = op w₁ current.value := by
                  rw [foldlM_front hpfold _, ← foldlM_shift hop st sh w₁, hfold, okBind]
                cases hstep : op w₁ current.value with
                | error e =>
                  rw [hstep] at h
                  rw [Option.some_inj, Prod.mk.injEq] at h
                  obtain ⟨hF, hres⟩ := h
                  subst hres
                  subst hF
                  refine ⟨hlen₁, hInv₁, ?_, ?_, ?_, ?_⟩
                  · intro m hm
                    obtain ⟨hr, hl⟩ := hframe₁ m hm
                    exact ⟨hr.trans hrootpk, by omega⟩
                  · intro he; exact Except.noConfusion he
                  · intro e₂ he
                    injection he with hee
                    subst hee
                    refine ⟨hgk₁, ph, pt ++ sh :: st, hpathk, ?_⟩
                    rw [hfold4]; exact hstep
                  · intro fuel₂ hf₂
                    cases fuel₂ with
                    | zero => omega
                    | succ f₂ =>
                      simp [compress, hgk₁, hcp, hgp₁, hrerun₁ f₂ (by omega), hstep]
                | ok merged =>
                  rw [hstep] at h
                  rw [Option.some_inj, Prod.mk.injEq] at h
                  obtain ⟨hF, hres⟩ := h
                  subst hres
                  subst hF
                  have hrltF₁ : M.root k < F₁.length := by
                    rw [hlen₁]; exact hInv.rootLt k hklt
                  have hkltF₁ : k < F₁.length := by rw [hlen₁]; exact hklt
                  have hInv₂ : ForestInv op (F₁.set k ⟨some (M.root k), merged⟩) M := by
                    refine inv_set_nonroot hInv₁ hkltF₁ hknr hrltF₁ (hInv.rootIdem k) ?_
                    refine ⟨ph, pt ++ sh :: st, ?_, by rw [hfold4]; exact hstep⟩
                    rw [hInv.rootPath k, List.nil_append]
                    exact hpathk
                  refine ⟨by simp [hlen₁], hInv₂, ?_, ?_, ?_, ?_⟩
                  · intro m hm
                    by_cases hmk : m = k
                    · subst hmk
                      exact ⟨rfl, Nat.le_refl _⟩
                    · rw [get?_set_ne _ _ (fun hh => hmk hh.symm)] at hm
                      obtain ⟨hr, hl⟩ := hframe₁ m hm
                      exact ⟨hr.trans hrootpk, by omega⟩
                  · intro _
                    refine ⟨merged, ?_, ph, pt ++ sh :: st, hpathk, by rw [hfold4]; exact hstep⟩
                    exact get?_set_self _ hkltF₁
                  · intro e he; exact Except.noConfusion he
                  · intro fuel₂ hf₂
                    cases fuel₂ with
                    | zero => omega
                    | succ f₂ =>
                      have hgetk :
                          (F₁.set k ⟨some (M.root k), merged⟩)[k]? =
                            some ⟨some (M.root k), merged⟩ :=
                        get?_set_self _ hkltF₁
                      obtain ⟨rnode, hrn⟩ := get?_is_some hrltF₁
                      have hrnone : rnode.parent = none :=
                        (hInv₁.rootCorr (M.root k) rnode hrn).2 (hInv.rootIdem k)
                      have hgrn :
                          (F₁.set k ⟨some (M.root k), merged⟩)[(M.root k)]? =
                            some rnode := by
                        rw [get?_set_ne _ _ (fun hh => hknr hh.symm)]
                        exact hrn
                      simp [compress, hgetk, hgrn, hrnone]

/-- Totality of `compress` under the invariant: on a non-root node, with fuel
at least the node's model depth, `compress` returns (no panic, no fuel
exhaustion). -/
theorem compress_total {V E : Type} {op : V → V → Except E V} (hop : AssocM op) :
    ∀ (fuel : Nat) (F : Forest V) (M : Model V) (k : Nat) (node : Node V)
      (p : Nat), ForestInv op F M → F[k]? = some node → node.parent = some p →
      (M.path k).length ≤ fuel →
      ∃ out, compress op fuel F k = some out := by
  intro fuel
  induction fuel with
  | zero =>
    intro F M k node p hInv hk hcp hfuel
    obtain ⟨_, _, sh, st, hpath, _⟩ := hInv.nonRoot k node p hk hcp
    rw [hpath] at hfuel
    simp at hfuel
  | succ fuel ih =>
    intro F M k node p hInv hk hcp hfuel
    obtain ⟨hplt, hrootp, sh, st, hpath, hfold⟩ := hInv.nonRoot k node p hk hcp
    obtain ⟨pnode, hp⟩ := get?_is_some hplt
    cases hpp : pnode.parent with
    | none =>
      exact ⟨(F, Except.ok ()), by simp [compress, hk, hcp, hp, hpp]⟩
    | some g =>
      have hlt : (M.path p).length < (M.path k).length := by rw [hpath]; simp
      obtain ⟨⟨F₁, res₁⟩, hrec⟩ := ih F M p pnode g hInv hp hpp (by omega)
      cases res₁ with
      | error e =>
        exact ⟨(F₁, Except.error e), by simp [compress, hk, hcp, hp, hpp, hrec]⟩
      | ok u =>
        cases u
        obtain ⟨hlen₁, hInv₁, hframe₁, hok₁, _, _⟩ :=
          compress_spec hop fuel F M p F₁ (Except.ok ()) hInv hrec
        obtain ⟨w₁, hgp₁, _⟩ := hok₁ rfl
        have hgk₁ : F₁[k]? = some node := by
          by_cases hch : F₁[k]? = F[k]?
          · rw [hch, hk]
          · obtain ⟨_, hle⟩ := hframe₁ k hch
            omega
        cases hstep : op w₁ node.value with
        | error e =>
          refine ⟨(F₁, Except.error e), ?_⟩
          simp [compress, hk, hcp, hp, hpp, hrec, hgk₁, hgp₁, hstep]
        | ok merged =>
          refine ⟨(F₁.set k ⟨some (M.root p), merged⟩, Except.ok ()), ?_⟩
          simp [compress, hk, hcp, hp, hpp, hrec, hgk₁, hgp₁, hstep]

/-- Soundness of `try_eval`: whenever it returns, the invariant is preserved
with the same model, the result is exactly the reference model's path fold,
and re-running on the resulting forest returns the same forest and result. -/
theorem tryEval_spec {V E : Type} {op : V → V → Except E V} (hop : AssocM op)
    {fuel : Nat} {F F' : Forest V} {M : Model V} {id : Nat} {res : Except E V}
    (hInv : ForestInv op F M) (h : tryEval op fuel F id = some (F', res)) :
    F'.length = F.length ∧ ForestInv op F' M ∧ res = pathFoldM op M id ∧
    ∀ fuel₂, fuel ≤ fuel₂ → tryEval op fuel₂ F' id = some (F', res) := by
  cases hid : F[id]? with
  | none => simp [tryEval, hid] at h
  | some node =>
    cases hpar : node.parent with
    | none =>
      have hroot : M.root id = id := (hInv.rootCorr id node hid).1 hpar
      obtain ⟨hval, hpath0⟩ := hInv.rootVal id node hid hpar
      simp only [tryEval, hid, hpar, Option.isNone_none, if_true] at h
      rw [Option.some_inj, Prod.mk.injEq] at h
      obtain ⟨hF, hres⟩ := h
      subst hF
      subst hres
      have hpf : pathFoldM op M id = Except.ok node.value := by
        rw [pathFoldM, hroot, hpath0, List.foldlM_nil, hval]
        rfl
      refine ⟨rfl, hInv, hpf.symm, ?_⟩
      intro fuel₂ _
      simp [tryEval, hid, hpar]
    | some parentKey =>
      cases hcpr : compress op fuel F id with
      | none => simp [tryEval, hid, hpar, hcpr] at h
      | some pr =>
        obtain ⟨F₁, res₁⟩ := pr
        obtain ⟨hlen₁, hInv₁, hframe₁, hok₁, herr₁, hrerun₁⟩ :=
          compress_spec hop fuel F M id F₁ res₁ hInv hcpr
        cases res₁ with
        | error e =>
          simp only [tryEval, hid, hpar, Option.isNone_some, Bool.false_eq_true,
            if_false, hcpr] at h
          rw [Option.some_inj, Prod.mk.injEq] at h
          obtain ⟨hF, hres⟩ := h
          subst hF
          subst hres
          obtain ⟨hun, ph, pt, hpathd, hfolde⟩ := herr₁ e rfl
          have hpf : pathFoldM op M id = Except.error e := by
            rw [pathFoldM, hpathd, ← foldlM_shift hop pt ph (M.rvals (M.root id)),
              hfolde, errBind]
          have hgid₁ : F₁[id]? = some node := by rw [hun, hid]
          refine ⟨hlen₁, hInv₁, hpf.symm, ?_⟩
          intro fuel₂ hf₂
          simp [tryEval, hgid₁, hpar, hrerun₁ fuel₂ hf₂]
        | ok u =>
          cases u
          obtain ⟨w, hgid₁, ph, pt, hpathd, hfoldw⟩ := hok₁ rfl
          have hrlt₁ : M.root id < F₁.length := by
            rw [hlen₁]; exact hInv.rootLt id (get?_lt hid)
          obtain ⟨rnode, hrn⟩ := get?_is_some hrlt₁
          have hrnone : rnode.parent = none :=
            (hInv₁.rootCorr (M.root id) rnode hrn).2 (hInv.rootIdem id)
          obtain ⟨hrval, _⟩ := hInv₁.rootVal (M.root id) rnode hrn hrnone
          simp only [tryEval, hid, hpar, Option.isNone_some, Bool.false_eq_true,
            if_false, hcpr, hgid₁, hrn] at h
          rw [Option.some_inj, Prod.mk.injEq] at h
          obtain ⟨hF, hres⟩ := h
          subst hF
          subst hres
          have hpf : pathFoldM op M id = op rnode.value w := by
            rw [pathFoldM, hpathd, ← foldlM_shift hop pt ph (M.rvals (M.root id)),
              hfoldw, okBind, hrval]
          refine ⟨hlen₁, hInv₁, hpf.symm, ?_⟩
          intro fuel₂ hf₂
          simp [tryEval, hgid₁, hrn, hrerun₁ fuel₂ hf₂]

/-- Totality of `try_eval` under the invariant with sufficient fuel. -/
theorem tryEval_total {V E : Type} {op : V → V → Except E V} (hop : AssocM op)
    {fuel : Nat} {F : Forest V} {M : Model V} {id : Nat} {node : Node V}
    (hInv : ForestInv op F M) (hid : F[id]? = some node)
    (hfuel : (M.path id).length ≤ fuel) :
    ∃ out, tryEval op fuel F id = some out := by
  cases hpar : node.parent with
  | none => exact ⟨(F, Except.ok node.value), by simp [tryEval, hid, hpar]⟩
  | some parentKey =>
    obtain ⟨⟨F₁, res₁⟩, hcpr⟩ := compress_total hop fuel F M id node parentKey hInv hid hpar hfuel
    cases res₁ with
    | error e =>
      exact ⟨(F₁, Except.error e), by simp [tryEval, hid, hpar, hcpr]⟩
    | ok u =>
      cases u
      obtain ⟨hlen₁, hInv₁, hframe₁, hok₁, _, _⟩ :=
        compress_spec hop fuel F M id F₁ (Except.ok ()) hInv hcpr
      obtain ⟨w, hgid₁, _⟩ := hok₁ rfl
      have hrlt₁ : M.root id < F₁.length := by
        rw [hlen₁]; exact hInv.rootLt id (get?_lt hid)
      obtain ⟨rnode, hrn⟩ := get?_is_some hrlt₁
      refine ⟨(F₁, op rnode.value w), ?_⟩
      simp [tryEval, hid, hpar, hcpr, hgid₁, hrn]

/-- Soundness of `try_update`: the length is preserved; on success the root of
`id`'s tree now stores the new value, the invariant holds against the updated
model, and a non-root `id` keeps its own (compressed) record rather than
receiving the value; on failure the invariant is preserved with the unchanged
model and the failure is the failure of `id`'s path fold. -/
theorem tryUpdate_spec {V E : Type} {op : V → V → Except E V} (hop : AssocM op)
    {fuel : Nat} {F F' : Forest V} {M : Model V} {id : Nat} {v : V}
    {res : Except E Unit} (hInv : ForestInv op F M)
    (h : tryUpdate op fuel F id v = some (F', res)) :
    F'.length = F.length ∧
    (res = Except.ok () → ForestInv op F' (updModel M id v) ∧
      F'[M.root id]? = some ⟨none, v⟩ ∧
      (M.root id ≠ id → ∃ w, F'[id]? = some ⟨some (M.root id), w⟩ ∧
        ∃ h t, M.path id = h :: t ∧ List.foldlM op h t = Except.ok w)) ∧
    (∀ e, res = Except.error e → ForestInv op F' M ∧
      ∃ h t, M.path id = h :: t ∧ List.foldlM op h t = Except.error e) := by
  cases hid : F[id]? with
  | none => simp [tryUpdate, hid] at h
  | some node =>
    have hidlt : id < F.length := get?_lt hid
    cases hpar : node.parent with
    | none =>
      have hroot : M.root id = id := (hInv.rootCorr id node hid).1 hpar
      simp only [tryUpdate, hid, hpar, Option.isNone_none, if_true] at h
      rw [Option.some_inj, Prod.mk.injEq] at h
      obtain ⟨hF, hres⟩ := h
      subst hF
      subst hres
      refine ⟨by simp, ?_, ?_⟩
      · intro _
        refine ⟨?_, ?_, ?_⟩
        · have hinv2 := @inv_set_rootval V E op F M id v hInv hroot hidlt
          show ForestInv op (F.set id ⟨none, v⟩)
            { M with rvals := fun m => if m = M.root id then v else M.rvals m }
          simp only [hroot]
          exact hinv2
        · rw [hroot]
          exact get?_set_self _ hidlt
        · intro hne; exact absurd hroot hne
      · intro e he; exact Except.noConfusion he
    | some parentKey =>
      cases hcpr : compress op fuel F id with
      | none => simp [tryUpdate, hid, hpar, hcpr] at h
      | some pr =>
        obtain ⟨F₁, res₁⟩ := pr
        obtain ⟨hlen₁, hInv₁, hframe₁, hok₁, herr₁, hrerun₁⟩ :=
          compress_spec hop fuel F M id F₁ res₁ hInv hcpr
        have hknr : M.root id ≠ id := by
          intro hr
          have hnone := (hInv.rootCorr id node hid).2 hr
          rw [hnone] at hpar
          exact Option.noConfusion hpar
        cases res₁ with
        | error e =>
          simp only [tryUpdate, hid, hpar, Option.isNone_some, Bool.false_eq_true,
            if_false, hcpr] at h
          rw [Option.some_inj, Prod.mk.injEq] at h
          obtain ⟨hF, hres⟩ := h
          subst hF
          subst hres
          obtain ⟨hun, ph, pt, hpathd, hfolde⟩ := herr₁ e rfl
          refine ⟨hlen₁, ?_, ?_⟩
          · intro he; exact Except.noConfusion he
          · intro e₂ he
            injection he with hee
            subst hee
            exact ⟨hInv₁, ph, pt, hpathd, hfolde⟩
        | ok u =>
          cases u
          obtain ⟨w, hgid₁, ph, pt, hpathd, hfoldw⟩ := hok₁ rfl
          have hrlt₁ : M.root id < F₁.length := by
            rw [hlen₁]; exact hInv.rootLt id hidlt
          obtain ⟨rnode, hrn⟩ := get?_is_some hrlt₁
          have hrnone : rnode.parent = none :=
            (hInv₁.rootCorr (M.root id) rnode hrn).2 (hInv.rootIdem id)
          simp only [tryUpdate, hid, hpar, Option.isNone_some, Bool.false_eq_true,
            if_false, hcpr, hgid₁, hrn, hrnone] at h
          rw [Option.some_inj, Prod.mk.injEq] at h
          obtain ⟨hF, hres⟩ := h
          subst hF
          subst hres
          refine ⟨by simp [hlen₁], ?_, ?_⟩
          · intro _
            refine ⟨?_, ?_, ?_⟩
            · exact inv_set_rootval hInv₁ (hInv.rootIdem id) hrlt₁
            · exact get?_set_self _ hrlt₁
            · intro _
              refine ⟨w, ?_, ph, pt, hpathd, hfoldw⟩
              rw [get?_set_ne _ _ (fun hh => hknr hh)]
              exact hgid₁
          · intro e he; exact Except.noConfusion he

/-- Totality of `try_update` under the invariant with sufficient fuel. -/
theorem tryUpdate_total {V E : Type} {op : V → V → Except E V} (hop : AssocM op)
    {fuel : Nat} {F : Forest V} {M : Model V} {id : Nat} {node : Node V} {v : V}
    (hInv : ForestInv op F M) (hid : F[id]? = some node)
    (hfuel : (M.path id).length ≤ fuel) :
    ∃ out, tryUpdate op fuel F id v = some out := by
  cases hpar : node.parent with
  | none =>
    exact ⟨(F.set id ⟨node.parent, v⟩, Except.ok ()), by simp [tryUpdate, hid, hpar]⟩
  | some parentKey =>
    obtain ⟨⟨F₁, res₁⟩, hcpr⟩ := compress_total hop fuel F M id node parentKey hInv hid hpar hfuel
    cases res₁ with
    | error e =>
      exact ⟨(F₁, Except.error e), by simp [tryUpdate, hid, hpar, hcpr]⟩
    | ok u =>
      cases u
      obtain ⟨hlen₁, hInv₁, hframe₁, hok₁, _, _⟩ :=
        compress_spec hop fuel F M id F₁ (Except.ok ()) hInv hcpr
      obtain ⟨w, hgid₁, _⟩ := hok₁ rfl
      have hrlt₁ : M.root id < F₁.length := by
        rw [hlen₁]; exact hInv.rootLt id (get?_lt hid)
      obtain ⟨rnode, hrn⟩ := get?_is_some hrlt₁
      refine ⟨(F₁.set (M.root id) ⟨rnode.parent, v⟩, Except.ok ()), ?_⟩
      simp [tryUpdate, hid, hpar, hcpr, hgid₁, hrn]

/-- Reparenting the root of `b`'s tree under the root of `a`'s tree while
storing the defined fold of `a`'s path values followed by the old root value
of `b` realizes the reference semantics of `link(a, b)`: the invariant holds
against `linkModel M a b`. -/
theorem inv_link {V E : Type} {op : V → V → Except E V} {F : Forest V}
    {M : Model V} {a b : Nat} {newV : V} (hInv : ForestInv op F M)
    (ha : a < F.length) (hb : b < F.length) (hne : M.root a ≠ M.root b)
    (hseg : ∃ h t, M.path a ++ [M.rvals (M.root b)] = h :: t ∧
        List.foldlM op h t = Except.ok newV) :
    ForestInv op (F.set (M.root b) ⟨some (M.root a), newV⟩) (linkModel M a b) := by
  have hralt : M.root a < F.length := hInv.rootLt a ha
  have hrblt : M.root b < F.length := hInv.rootLt b hb
  have hraidem : M.root (M.root a) = M.root a := hInv.rootIdem a
  have hrbidem : M.root (M.root b) = M.root b := hInv.rootIdem b
  have hrapath : M.path (M.root a) = [] := hInv.rootPath a
  have hrbpath : M.path (M.root b) = [] := hInv.rootPath b
  have hlen : (F.set (M.root b) (⟨some (M.root a), newV⟩ : Node V)).length = F.length := by
    simp
  refine ⟨?_, ?_, ?_, ?_, ?_, ?_, ?_, ?_⟩
  · intro m hm
    rw [hlen] at hm
    have h0 := hInv.outRoot m hm
    have hcne : M.root m ≠ M.root b := by
      rw [h0]; intro hc; rw [hc] at hm; omega
    show (if M.root m = M.root b then M.root a else M.root m) = m
    rw [if_neg hcne, h0]
  · intro m hm
    rw [hlen] at hm
    have h0 := hInv.outRoot m hm
    have hcne : M.root m ≠ M.root b := by
      rw [h0]; intro hc; rw [hc] at hm; omega
    show (if M.root m = M.root b then M.path a ++ M.rvals (M.root b) :: M.path m
          else M.path m) = []
    rw [if_neg hcne]
    exact hInv.outPath m hm
  · intro n hn
    rw [hlen] at hn
    rw [hlen]
    show (if M.root n = M.root b then M.root a else M.root n) < F.length
    by_cases hc : M.root n = M.root b
    · rw [if_pos hc]; exact hralt
    · rw [if_neg hc]; exact hInv.rootLt n hn
  · intro n
    simp only [linkModel]
    by_cases hc : M.root n = M.root b
    · rw [if_pos hc, hraidem, if_neg hne]
    · rw [if_neg hc, hInv.rootIdem n, if_neg hc]
  · intro n
    simp only [linkModel]
    by_cases hc : M.root n = M.root b
    · rw [if_pos hc, hraidem, if_neg hne]
      exact hrapath
    · rw [if_neg hc, hInv.rootIdem n, if_neg hc]
      exact hInv.rootPath n
  · intro n node hget
    by_cases hnb : n = M.root b
    · rw [hnb] at hget ⊢
      rw [get?_set_self _ hrblt] at hget
      injection hget with hnode
      subst hnode
      show (some (M.root a) = none ↔
        (if M.root (M.root b) = M.root b then M.root a else M.root (M.root b)) = M.root b)
      rw [hrbidem, if_pos rfl]
      constructor
      · intro hc; exact Option.noConfusion hc
      · intro hc; exact absurd hc hne
    · rw [get?_set_ne _ _ (fun hh => hnb hh.symm)] at hget
      have hold := hInv.rootCorr n node hget
      show (node.parent = none ↔ (if M.root n = M.root b then M.root a else M.root n) = n)
      by_cases hc : M.root n = M.root b
      · rw [if_pos hc]
        constructor
        · intro hpn
          rw [hold.1 hpn] at hc
          exact absurd hc hnb
        · intro hra
          rw [← hra, hraidem] at hc
          exact absurd hc hne
      · rw [if_neg hc]
        exact hold
  · intro n node hget hpar
    by_cases hnb : n = M.root b
    · rw [hnb] at hget
      rw [get?_set_self _ hrblt] at hget
      injection hget with hnode
      subst hnode
      exact absurd hpar (by simp)
    · rw [get?_set_ne _ _ (fun hh => hnb hh.symm)] at hget
      obtain ⟨hval, hpath⟩ := hInv.rootVal n node hget hpar
      have hrn : M.root n = n := (hInv.rootCorr n node hget).1 hpar
      have hc : M.root n ≠ M.root b := by rw [hrn]; exact hnb
      refine ⟨hval, ?_⟩
      show (if M.root n = M.root b then M.path a ++ M.rvals (M.root b) :: M.path n
            else M.path n) = []
      rw [if_neg hc]
      exact hpath
  · intro n node p hget hpar
    by_cases hnb : n = M.root b
    · rw [hnb] at hget ⊢
      rw [get?_set_self _ hrblt] at hget
      injection hget with hnode
      subst hnode
      have hpa : p = M.root a := by simpa using hpar.symm
      subst hpa
      refine ⟨by rw [hlen]; exact hralt, ?_, ?_⟩
      · show (if M.root (M.root a) = M.root b then M.root a else M.root (M.root a)) =
          (if M.root (M.root b) = M.root b then M.root a else M.root (M.root b))
        rw [hraidem, hrbidem, if_neg hne, if_pos rfl]
      · obtain ⟨sh, st, hsegEq, hsegFold⟩ := hseg
        refine ⟨sh, st, ?_, hsegFold⟩
        show (if M.root (M.root b) = M.root b then
                M.path a ++ M.rvals (M.root b) :: M.path (M.root b)
              else M.path (M.root b)) =
          (if M.root (M.root a) = M.root b then
                M.path a ++ M.rvals (M.root b) :: M.path (M.root a)
              else M.path (M.root a)) ++ sh :: st
        rw [hrbidem, if_pos rfl, hraidem, if_neg hne, hrapath, hrbpath,
          List.nil_append]
        exact hsegEq
    · rw [get?_set_ne _ _ (fun hh => hnb hh.symm)] at hget
      obtain ⟨hplt, hrooteq, sh, st, hpth, hfld⟩ := hInv.nonRoot n node p hget hpar
      refine ⟨by rw [hlen]; exact hplt, ?_, ?_⟩
      · show (if M.root p = M.root b then M.root a else M.root p) =
          (if M.root n = M.root b then M.root a else M.root n)
        rw [hrooteq]
      · by_cases hc : M.root n = M.root b
        · refine ⟨sh, st, ?_, hfld⟩
          show (if M.root n = M.root b then M.path a ++ M.rvals (M.root b) :: M.path n
                else M.path n) =
            (if M.root p = M.root b then M.path a ++ M.rvals (M.root b) :: M.path p
                else M.path p) ++ sh :: st
          rw [if_pos hc, if_pos (hrooteq.trans hc), hpth, List.append_assoc,
            List.cons_append]
        · refine ⟨sh, st, ?_, hfld⟩
          show (if M.root n = M.root b then M.path a ++ M.rvals (M.root b) :: M.path n
                else M.path n) =
            (if M.root p = M.root b then M.path a ++ M.rvals (M.root b) :: M.path p
                else M.path p) ++ sh :: st
          rw [if_neg hc, if_neg (fun hh => hc (hrooteq ▸ hh))]
          exact hpth

/-- Soundness of the root-locating step of `try_link`: it preserves the
invariant, touches only `id`'s tree, and on success returns the true root of
`id`'s tree, with `id` fully compressed when it was not a root. -/
theorem linkRoot_spec {V E : Type} {op : V → V → Except E V} (hop : AssocM op)
    {fuel : Nat} {F F₁ : Forest V} {M : Model V} {id : Nat} {res : Except E Nat}
    (hInv : ForestInv op F M) (h : linkRoot op fuel F id = some (F₁, res)) :
    id < F.length ∧ F₁.length = F.length ∧ ForestInv op F₁ M ∧
    (∀ m, F₁[m]? ≠ F[m]? →
      M.root m = M.root id ∧ (M.path m).length ≤ (M.path id).length) ∧
    (∀ r, res = Except.ok r → r = M.root id ∧
      (M.root id ≠ id → ∃ w, F₁[id]? = some ⟨some (M.root id), w⟩ ∧
        ∃ h t, M.path id = h :: t ∧ List.foldlM op h t = Except.ok w)) ∧
    (∀ e, res = Except.error e →
      ∃ h t, M.path id = h :: t ∧ List.foldlM op h t = Except.error e) := by
  cases hid : F[id]? with
  | none => simp [linkRoot, hid] at h
  | some node =>
    have hidlt : id < F.length := get?_lt hid
    cases hpar : node.parent with
    | none =>
      have hroot : M.root id = id := (hInv.rootCorr id node hid).1 hpar
      simp only [linkRoot, hid, hpar, Option.isNone_none, if_true] at h
      rw [Option.some_inj, Prod.mk.injEq] at h
      obtain ⟨hF, hres⟩ := h
      subst hF
      subst hres
      refine ⟨hidlt, rfl, hInv, ?_, ?_, ?_⟩
      · intro m hm; exact absurd rfl hm
      · intro r hr
        injection hr with hr
        subst hr
        exact ⟨hroot.symm, fun hne => absurd hroot hne⟩
      · intro e he; exact Except.noConfusion he
    | some parentKey =>
      have hknr : M.root id ≠ id := by
        intro hr
        have hnone := (hInv.rootCorr id node hid).2 hr
        rw [hnone] at hpar
        exact Option.noConfusion hpar
      cases hcpr : compress op fuel F id with
      | none => simp [linkRoot, hid, hpar, hcpr] at h
      | some pr =>
        obtain ⟨Fc, resc⟩ := pr
        obtain ⟨hlenc, hInvc, hframec, hokc, herrc, _⟩ :=
          compress_spec hop fuel F M id Fc resc hInv hcpr
        cases resc with
        | error e =>
          simp only [linkRoot, hid, hpar, Option.isNone_some, Bool.false_eq_true,
            if_false, hcpr] at h
          rw [Option.some_inj, Prod.mk.injEq] at h
          obtain ⟨hF, hres⟩ := h
          subst hF
          subst hres
          refine ⟨hidlt, hlenc, hInvc, hframec, ?_, ?_⟩
          · intro r hr; exact Except.noConfusion hr
          · intro e₂ he
            injection he with hee
            subst hee
            exact (herrc _ rfl).2
        | ok u =>
          cases u
          obtain ⟨w, hgid, ph, pt, hpathd, hfoldw⟩ := hokc rfl
          simp only [linkRoot, hid, hpar, Option.isNone_some, Bool.false_eq_true,
            if_false, hcpr, hgid] at h
          rw [Option.some_inj, Prod.mk.injEq] at h
          obtain ⟨hF, hres⟩ := h
          subst hF
          subst hres
          refine ⟨hidlt, hlenc, hInvc, hframec, ?_, ?_⟩
          · intro r hr
            injection hr with hr
            subst hr
            exact ⟨rfl, fun _ => ⟨w, hgid, ph, pt, hpathd, hfoldw⟩⟩
          · intro e he; exact Except.noConfusion he

/-- Totality of the root-locating step under the invariant with sufficient
fuel. -/
theorem linkRoot_total {V E : Type} {op : V → V → Except E V} (hop : AssocM op)
    {fuel : Nat} {F : Forest V} {M : Model V} {id : Nat} {node : Node V}
    (hInv : ForestInv op F M) (hid : F[id]? = some node)
    (hfuel : (M.path id).length ≤ fuel) :
    ∃ out, linkRoot op fuel F id = some out := by
  cases hpar : node.parent with
  | none => exact ⟨(F, Except.ok id), by simp [linkRoot, hid, hpar]⟩
  | some parentKey =>
    obtain ⟨⟨Fc, resc⟩, hcpr⟩ :=
      compress_total hop fuel F M id node parentKey hInv hid hpar hfuel
    cases resc with
    | error e =>
      exact ⟨(Fc, Except.error e), by simp [linkRoot, hid, hpar, hcpr]⟩
    | ok u =>
      cases u
      obtain ⟨_, _, _, hokc, _, _⟩ :=
        compress_spec hop fuel F M id Fc (Except.ok ()) hInv hcpr
      obtain ⟨w, hgid, _⟩ := hokc rfl
      exact ⟨(Fc, Except.ok (M.root id)), by simp [linkRoot, hid, hpar, hcpr, hgid]⟩

/-- Soundness of a successful `try_link` on distinct trees: the root of `b`'s
tree is reparented directly under the root of `a`'s tree (never literally at
`a` when `a` is not a root), with the compensation fold stored when `a` is
not a root, and the invariant holds against the link reference model. -/
theorem tryLink_spec {V E : Type} {op : V → V → Except E V} (hop : AssocM op)
    {fuel : Nat} {F F' : Forest V} {M : Model V} {a b : Nat}
    (hInv : ForestInv op F M) (hab : M.root a ≠ M.root b)
    (h : tryLink op fuel F a b = some (F', Except.ok ())) :
    F'.length = F.length ∧ ForestInv op F' (linkModel M a b) ∧
    ∃ newV, F'[M.root b]? = some ⟨some (M.root a), newV⟩ ∧
      ((M.root a = a ∧ newV = M.rvals (M.root b)) ∨
        (M.root a ≠ a ∧ ∃ w,
          (∃ h t, M.path a = h :: t ∧ List.foldlM op h t = Except.ok w) ∧
          op w (M.rvals (M.root b)) = Except.ok newV)) := by
  cases hra : linkRoot op fuel F a with
  | none => simp [tryLink, hra] at h
  | some prA =>
    obtain ⟨F₁, resA⟩ := prA
    cases resA with
    | error e =>
      simp only [tryLink, hra] at h
      rw [Option.some_inj, Prod.mk.injEq] at h
      exact Except.noConfusion h.2
    | ok rootA =>
      obtain ⟨halt, hlen₁, hInv₁, hframe₁, hokA, _⟩ := linkRoot_spec hop hInv hra
      obtain ⟨hrA, hcompA⟩ := hokA rootA rfl
      subst hrA
      cases hrb : linkRoot op fuel F₁ b with
      | none => simp [tryLink, hra, hrb] at h
      | some prB =>
        obtain ⟨F₂, resB⟩ := prB
        cases resB with
        | error e =>
          simp only [tryLink, hra, hrb] at h
          rw [Option.some_inj, Prod.mk.injEq] at h
          exact Except.noConfusion h.2
        | ok rootB =>
          obtain ⟨hblt₁, hlen₂, hInv₂, hframe₂, hokB, _⟩ := linkRoot_spec hop hInv₁ hrb
          obtain ⟨hrB, hcompB⟩ := hokB rootB rfl
          subst hrB
          have hbltF : b < F.length := by rw [← hlen₁]; exact hblt₁
          have haltF₂ : a < F₂.length := by rw [hlen₂, hlen₁]; exact halt
          have hbltF₂ : b < F₂.length := by rw [hlen₂]; exact hblt₁
          have hrblt₂ : M.root b < F₂.length := by
            rw [hlen₂, hlen₁]; exact hInv.rootLt b hbltF
          obtain ⟨nodeB, hgb⟩ := get?_is_some hrblt₂
          have hgbroot : nodeB.parent = none :=
            (hInv₂.rootCorr (M.root b) nodeB hgb).2 (hInv.rootIdem b)
          have hgbval : nodeB.value = M.rvals (M.root b) :=
            (hInv₂.rootVal (M.root b) nodeB hgb hgbroot).1
          simp only [tryLink, hra, hrb, hgb] at h
          by_cases hraa : M.root a = a
          · rw [if_pos hraa] at h
            rw [Option.some_inj, Prod.mk.injEq] at h
            obtain ⟨hF, _⟩ := h
            subst hF
            have hpa : M.path a = [] := by rw [← hraa]; exact hInv.rootPath a
            refine ⟨by simp [hlen₂, hlen₁], ?_, ?_⟩
            · refine inv_link hInv₂ haltF₂ hbltF₂ hab ?_
              refine ⟨M.rvals (M.root b), [], by rw [hpa]; rfl, ?_⟩
              rw [List.foldlM_nil, hgbval]
              rfl
            · exact ⟨nodeB.value, get?_set_self _ hrblt₂, Or.inl ⟨hraa, hgbval⟩⟩
          · rw [if_neg hraa] at h
            have hanrb : a ≠ M.root b := by
              intro hc
              have : M.root a = M.root b := by rw [hc, hInv.rootIdem b]
              exact absurd this hab
            obtain ⟨w, hga₁, ph, pt, hpad, hfoldw⟩ := hcompA hraa
            have hga₂ : F₂[a]? = some ⟨some (M.root a), w⟩ := by
              by_cases hch : F₂[a]? = F₁[a]?
              · rw [hch, hga₁]
              · obtain ⟨hr, _⟩ := hframe₂ a hch
                exact absurd hr hab
            have hga₃ : (F₂.set (M.root b) (⟨some (M.root a), nodeB.value⟩ : Node V))[a]? =
                some ⟨some (M.root a), w⟩ := by
              rw [get?_set_ne _ _ (fun hh => hanrb hh.symm)]
              exact hga₂
            have hgb₃ : (F₂.set (M.root b) (⟨some (M.root a), nodeB.value⟩ : Node V))[M.root b]? =
                some ⟨some (M.root a), nodeB.value⟩ :=
              get?_set_self _ hrblt₂
            simp only [hga₃, hgb₃] at h
            cases hstep : op w nodeB.value with
            | error e =>
              rw [hstep] at h
              rw [Option.some_inj, Prod.mk.injEq] at h
              exact Except.noConfusion h.2
            | ok newV =>
              rw [hstep] at h
              rw [Option.some_inj, Prod.mk.injEq] at h
              obtain ⟨hF, _⟩ := h
              rw [List.set_set] at hF
              subst hF
              have hfold5 : List.foldlM op ph (pt ++ [M.rvals (M.root b)]) =
                  Except.ok newV := by
                rw [foldlM_front hfoldw]
                simp only [List.foldlM_cons, List.foldlM_nil, bind_pure]
                rw [← hgbval]
                exact hstep
              refine ⟨by simp [hlen₂, hlen₁], ?_, ?_⟩
              · refine inv_link hInv₂ haltF₂ hbltF₂ hab ?_
                refine ⟨ph, pt ++ [M.rvals (M.root b)], ?_, hfold5⟩
                rw [hpad]
                rfl
              · refine ⟨newV, get?_set_self _ hrblt₂, Or.inr ⟨hraa, w, ⟨ph, pt, hpad, hfoldw⟩, ?_⟩⟩
                rw [← hgbval]
                exact hstep

/-- Failure characterization of `try_link` on distinct trees: the returned
error is the error of some combinator invocation, and either the failure hit
during one of the compression phases (the invariant is preserved with the
unchanged model) or it hit the compensation step, in which case the root of
`b`'s tree has already been reparented under the root of `a`'s tree while
keeping its uncompensated value. -/
theorem tryLink_err {V E : Type} {op : V → V → Except E V} (hop : AssocM op)
    {fuel : Nat} {F F' : Forest V} {M : Model V} {a b : Nat} {e : E}
    (hInv : ForestInv op F M) (hab : M.root a ≠ M.root b)
    (h : tryLink op fuel F a b = some (F', Except.error e)) :
    (∃ x y, op x y = Except.error e) ∧
    (ForestInv op F' M ∨
      (M.root a ≠ a ∧ ∃ w,
        F'[M.root b]? = some ⟨some (M.root a), M.rvals (M.root b)⟩ ∧
        (∃ h t, M.path a = h :: t ∧ List.foldlM op h t = Except.ok w) ∧
        op w (M.rvals (M.root b)) = Except.error e)) := by
  cases hra : linkRoot op fuel F a with
  | none => simp [tryLink, hra] at h
  | some prA =>
    obtain ⟨F₁, resA⟩ := prA
    cases resA with
    | error e₁ =>
      obtain ⟨halt, hlen₁, hInv₁, hframe₁, _, herrA⟩ := linkRoot_spec hop hInv hra
      simp only [tryLink, hra] at h
      rw [Option.some_inj, Prod.mk.injEq] at h
      obtain ⟨hF, hres⟩ := h
      injection hres with hee
      subst hee
      subst hF
      obtain ⟨ph, pt, _, hfolde⟩ := herrA _ rfl
      exact ⟨foldlM_err_exists hfolde, Or.inl hInv₁⟩
    | ok rootA =>
      obtain ⟨halt, hlen₁, hInv₁, hframe₁, hokA, _⟩ := linkRoot_spec hop hInv hra
      obtain ⟨hrA, hcompA⟩ := hokA rootA rfl
      subst hrA
      cases hrb : linkRoot op fuel F₁ b with
      | none => simp [tryLink, hra, hrb] at h
      | some prB =>
        obtain ⟨F₂, resB⟩ := prB
        cases resB with
        | error e₁ =>
          obtain ⟨hblt₁, hlen₂, hInv₂, hframe₂, _, herrB⟩ := linkRoot_spec hop hInv₁ hrb
          simp only [tryLink, hra, hrb] at h
          rw [Option.some_inj, Prod.mk.injEq] at h
          obtain ⟨hF, hres⟩ := h
          injection hres with hee
          subst hee
          subst hF
          obtain ⟨ph, pt, _, hfolde⟩ := herrB _ rfl
          exact ⟨foldlM_err_exists hfolde, Or.inl hInv₂⟩
        | ok rootB =>
          obtain ⟨hblt₁, hlen₂, hInv₂, hframe₂, hokB, _⟩ := linkRoot_spec hop hInv₁ hrb
          obtain ⟨hrB, hcompB⟩ := hokB rootB rfl
          subst hrB
          have hbltF : b < F.length := by rw [← hlen₁]; exact hblt₁
          have hrblt₂ : M.root b < F₂.length := by
            rw [hlen₂, hlen₁]; exact hInv.rootLt b hbltF
          obtain ⟨nodeB, hgb⟩ := get?_is_some hrblt₂
          have hgbroot : nodeB.parent = none :=
            (hInv₂.rootCorr (M.root b) nodeB hgb).2 (hInv.rootIdem b)
          have hgbval : nodeB.value = M.rvals (M.root b) :=
            (hInv₂.rootVal (M.root b) nodeB hgb hgbroot).1
          simp only [tryLink, hra, hrb, hgb] at h
          by_cases hraa : M.root a = a
          · rw [if_pos hraa] at h
            rw [Option.some_inj, Prod.mk.injEq] at h
            exact Except.noConfusion h.2
          · rw [if_neg hraa] at h
            have hanrb : a ≠ M.root b := by
              intro hc
              have hcc : M.root a = M.root b := by rw [hc, hInv.rootIdem b]
              exact absurd hcc hab
            obtain ⟨w, hga₁, ph, pt, hpad, hfoldw⟩ := hcompA hraa
            have hga₂ : F₂[a]? = some ⟨some (M.root a), w⟩ := by
              by_cases hch : F₂[a]? = F₁[a]?
              · rw [hch, hga₁]
              · obtain ⟨hr, _⟩ := hframe₂ a hch
                exact absurd hr hab
            have hga₃ : (F₂.set (M.root b) (⟨some (M.root a), nodeB.value⟩ : Node V))[a]? =
                some ⟨some (M.root a), w⟩ := by
              rw [get?_set_ne _ _ (fun hh => hanrb hh.symm)]
              exact hga₂
            have hgb₃ : (F₂.set (M.root b) (⟨some (M.root a), nodeB.value⟩ : Node V))[M.root b]? =
                some ⟨some (M.root a), nodeB.value⟩ :=
              get?_set_self _ hrblt₂
            simp only [hga₃, hgb₃] at h
            cases hstep : op w nodeB.value with
            | ok newV =>
              rw [hstep] at h
              rw [Option.some_inj, Prod.mk.injEq] at h
              exact Except.noConfusion h.2
            | error e₁ =>
              rw [hstep] at h
              rw [Option.some_inj, Prod.mk.injEq] at h
              obtain ⟨hF, hres⟩ := h
              injection hres with hee
              subst hee
              subst hF
              refine ⟨⟨w, nodeB.value, hstep⟩, Or.inr ⟨hraa, w, ?_, ⟨ph, pt, hpad, hfoldw⟩, ?_⟩⟩
              · rw [← hgbval]
                exact get?_set_self _ hrblt₂
              · rw [← hgbval]
                exact hstep

/-- Totality of `try_link` under the invariant with sufficient fuel. -/
theorem tryLink_total {V E : Type} {op : V → V → Except E V} (hop : AssocM op)
    {fuel : Nat} {F : Forest V} {M : Model V} {a b : Nat}
    (hInv : ForestInv op F M) (hab : M.root a ≠ M.root b)
    (ha : a < F.length) (hb : b < F.length)
    (hfa : (M.path a).length ≤ fuel) (hfb : (M.path b).length ≤ fuel) :
    ∃ out, tryLink op fuel F a b = some out := by
  obtain ⟨nA, hga⟩ := get?_is_some ha
  obtain ⟨⟨F₁, resA⟩, hra⟩ := linkRoot_total hop hInv hga hfa
  cases resA with
  | error e => exact ⟨(F₁, Except.error e), by simp [tryLink, hra]⟩
  | ok rootA =>
    obtain ⟨halt, hlen₁, hInv₁, hframe₁, hokA, _⟩ := linkRoot_spec hop hInv hra
    obtain ⟨hrA, hcompA⟩ := hokA rootA rfl
    subst hrA
    have hblt₁ : b < F₁.length := by rw [hlen₁]; exact hb
    obtain ⟨nB, hgb₁⟩ := get?_is_some hblt₁
    obtain ⟨⟨F₂, resB⟩, hrb⟩ := linkRoot_total hop hInv₁ hgb₁ hfb
    cases resB with
    | error e => exact ⟨(F₂, Except.error e), by simp [tryLink, hra, hrb]⟩
    | ok rootB =>
      obtain ⟨hblt₁', hlen₂, hInv₂, hframe₂, hokB, _⟩ := linkRoot_spec hop hInv₁ hrb
      obtain ⟨hrB, hcompB⟩ := hokB rootB rfl
      subst hrB
      have hrblt₂ : M.root b < F₂.length := by
        rw [hlen₂, hlen₁]; exact hInv.rootLt b hb
      obtain ⟨nodeB, hgb⟩ := get?_is_some hrblt₂
      by_cases hraa : M.root a = a
      · refine ⟨(F₂.set (M.root b) ⟨some (M.root a), nodeB.value⟩, Except.ok ()), ?_⟩
        simp [tryLink, hra, hrb, hgb, if_pos hraa]
      · have hanrb : a ≠ M.root b := by
          intro hc
          have hcc : M.root a = M.root b := by rw [hc, hInv.rootIdem b]
          exact absurd hcc hab
        obtain ⟨w, hga₁, ph, pt, hpad, hfoldw⟩ := hcompA hraa
        have hga₂ : F₂[a]? = some ⟨some (M.root a), w⟩ := by
          by_cases hch : F₂[a]? = F₁[a]?
          · rw [hch, hga₁]
          · obtain ⟨hr, _⟩ := hframe₂ a hch
            exact absurd hr hab
        have hga₃ : (F₂.set (M.root b) (⟨some (M.root a), nodeB.value⟩ : Node V))[a]? =
            some ⟨some (M.root a), w⟩ := by
          rw [get?_set_ne _ _ (fun hh => hanrb hh.symm)]
          exact hga₂
        have hgb₃ : (F₂.set (M.root b) (⟨some (M.root a), nodeB.value⟩ : Node V))[M.root b]? =
            some ⟨some (M.root a), nodeB.value⟩ :=
          get?_set_self _ hrblt₂
        cases hstep : op w nodeB.value with
        | error e =>
          refine ⟨(F₂.set (M.root b) ⟨some (M.root a), nodeB.value⟩, Except.error e), ?_⟩
          simp [tryLink, hra, hrb, hgb, if_neg hraa, hga₃, hgb₃, hstep]
        | ok newV =>
          refine ⟨((F₂.set (M.root b) ⟨some (M.root a), nodeB.value⟩).set (M.root b)
            ⟨some (M.root a), newV⟩, Except.ok ()), ?_⟩
          simp [tryLink, hra, hrb, hgb, if_neg hraa, hga₃, hgb₃, hstep]

/-- Every forest reachable by the admissible operation sequences satisfies
the invariant against its reference model. -/
theorem built_inv {V E : Type} {op : V → V → Except E V} (hop : AssocM op)
    {F : Forest V} {M : Model V} (hb : Built op F M) : ForestInv op F M := by
  induction hb with
  | empty rv => exact inv_empty op rv
  | newroot v _ ih => exact inv_newRoot ih v
  | link _ ha hblt hne hlink ih => exact (tryLink_spec hop ih hne hlink).2.1
  | updateOk _ hupd ih => exact ((tryUpdate_spec hop ih hupd).2.1 rfl).1
  | updateErr _ hupd ih => exact ((tryUpdate_spec hop ih hupd).2.2 _ rfl).1
  | evalOk _ heval ih => exact (tryEval_spec hop ih heval).2.1
  | evalErr _ heval ih => exact (tryEval_spec hop ih heval).2.1

/-- The invariant implies the compression invariant in the exact form the
spec words it. -/
theorem inv_specInv {V E : Type} {op : V → V → Except E V} (hop : AssocM op)
    {F : Forest V} {M : Model V} (hInv : ForestInv op F M) : SpecInv op F M := by
  intro n node p pnode hgn hpn hgp hproot
  obtain ⟨hplt, hrootp, sh, st, hpath, hfold⟩ := hInv.nonRoot n node p hgn hpn
  have hpr : M.root p = p := (hInv.rootCorr p pnode hgp).1 hproot
  obtain ⟨hpv, hppath⟩ := hInv.rootVal p pnode hgp hproot
  have hrn : M.root n = p := by rw [← hrootp, hpr]
  have hpathn : M.path n = sh :: st := by rw [hpath, hppath, List.nil_append]
  rw [pathFoldM, hrn, hpathn, ← foldlM_shift hop st sh (M.rvals p), hfold, okBind, hpv]

/-- With a combinator that always succeeds, every fold succeeds. -/
theorem foldlM_ok_total {V E : Type} {op : V → V → Except E V}
    (hok : ∀ x y, ∃ z, op x y = Except.ok z) :
    ∀ (t : List V) (h : V), ∃ z, List.foldlM op h t = Except.ok z := by
  intro t
  induction t with
  | nil => intro h; exact ⟨h, by rw [List.foldlM_nil]; rfl⟩
  | cons c t ih =>
    intro h
    obtain ⟨z, hz⟩ := hok h c
    obtain ⟨z₂, hz₂⟩ := ih z
    exact ⟨z₂, by rw [List.foldlM_cons, hz, okBind, hz₂]⟩

/-- `compress` never changes the number of nodes. -/
theorem compress_len {V E : Type} (op : V → V → Except E V) :
    ∀ (fuel : Nat) (F : Forest V) (k : Nat) (F' : Forest V) (res : Except E Unit),
      compress op fuel F k = some (F', res) → F'.length = F.length := by
  intro fuel
  induction fuel with
  | zero => intro F k F' res h; simp [compress] at h
  | succ fuel ih =>
    intro F k F' res h
    cases hk : F[k]? with
    | none => simp [compress, hk] at h
    | some current =>
      cases hcp : current.parent with
      | none => simp [compress, hk, hcp] at h
      | some pk =>
        cases hp : F[pk]? with
        | none => simp [compress, hk, hcp, hp] at h
        | some parent =>
          cases hpp : parent.parent with
          | none =>
            simp only [compress, hk, hcp, hp, hpp, Option.isNone_none, if_true] at h
            rw [Option.some_inj, Prod.mk.injEq] at h
            obtain ⟨hF, _⟩ := h
            rw [← hF]
          | some g =>
            cases hrec : compress op fuel F pk with
            | none =>
              simp only [compress, hk, hcp, hp, hpp, Option.isNone_some,
                Bool.false_eq_true, if_false, hrec] at h
              exact Option.noConfusion h
            | some pr =>
              obtain ⟨F₁, res₁⟩ := pr
              have hlen₁ := ih F pk F₁ res₁ hrec
              cases res₁ with
              | error e =>
                simp only [compress, hk, hcp, hp, hpp, Option.isNone_some,
                  Bool.false_eq_true, if_false, hrec] at h
                rw [Option.some_inj, Prod.mk.injEq] at h
                obtain ⟨hF, _⟩ := h
                rw [← hF]
                exact hlen₁
              | ok u =>
                cases u
                cases hk₁ : F₁[k]? with
                | none =>
                  simp only [compress, hk, hcp, hp, hpp, Option.isNone_some,
                    Bool.false_eq_true, if_false, hrec, hk₁] at h
                  exact Option.noConfusion h
                | some current₁ =>
                  cases hp₁ : F₁[pk]? with
                  | none =>
                    simp only [compress, hk, hcp, hp, hpp, Option.isNone_some,
                      Bool.false_eq_true, if_false, hrec, hk₁, hp₁] at h
                    exact Option.noConfusion h
                  | some parent₁ =>
                    cases hpp₁ : parent₁.parent with
                    | none =>
                      simp only [compress, hk, hcp, hp, hpp, Option.isNone_some,
                        Bool.false_eq_true, if_false, hrec, hk₁, hp₁, hpp₁] at h
                      exact Option.noConfusion h
                    | some ppk =>
                      cases hstep : op parent₁.value current₁.value with
                      | error e =>
                        simp only [compress, hk, hcp, hp, hpp, Option.isNone_some,
                          Bool.false_eq_true, if_false, hrec, hk₁, hp₁, hpp₁, hstep] at h
                        rw [Option.some_inj, Prod.mk.injEq] at h
                        obtain ⟨hF, _⟩ := h
                        rw [← hF]
                        exact hlen₁
                      | ok merged =>
                        simp only [compress, hk, hcp, hp, hpp, Option.isNone_some,
                          Bool.false_eq_true, if_false, hrec, hk₁, hp₁, hpp₁, hstep] at h
                        rw [Option.some_inj, Prod.mk.injEq] at h
                        obtain ⟨hF, _⟩ := h
                        rw [← hF]
                        simp [hlen₁]

/-- The root-locating step of `try_link` never changes the number of nodes. -/
theorem linkRoot_len {V E : Type} (op : V → V → Except E V) (fuel : Nat)
    (F : Forest V) (id : Nat) (F' : Forest V) (res : Except E Nat)
    (h : linkRoot op fuel F id = some (F', res)) : F'.length = F.length := by
  cases hid : F[id]? with
  | none => simp [linkRoot, hid] at h
  | some node =>
    cases hpar : node.parent with
    | none =>
      simp only [linkRoot, hid, hpar, Option.isNone_none, if_true] at h
      rw [Option.some_inj, Prod.mk.injEq] at h
      rw [← h.1]
    | some pk =>
      cases hcpr : compress op fuel F id with
      | none => simp [linkRoot, hid, hpar, hcpr] at h
      | some pr =>
        obtain ⟨Fc, resc⟩ := pr
        have hlenc := compress_len op fuel F id Fc resc hcpr
        cases resc with
        | error e =>
          simp only [linkRoot, hid, hpar, Option.isNone_some, Bool.false_eq_true,
            if_false, hcpr] at h
          rw [Option.some_inj, Prod.mk.injEq] at h
          rw [← h.1]
          exact hlenc
        | ok u =>
          cases u
          cases hgid : Fc[id]? with
          | none =>
            simp only [linkRoot, hid, hpar, Option.isNone_some, Bool.false_eq_true,
              if_false, hcpr, hgid] at h
            exact Option.noConfusion h
          | some node₁ =>
            cases hpar₁ : node₁.parent with
            | none =>
              simp only [linkRoot, hid, hpar, Option.isNone_some, Bool.false_eq_true,
                if_false, hcpr, hgid, hpar₁] at h
              exact Option.noConfusion h
            | some r =>
              simp only [linkRoot, hid, hpar, Option.isNone_some, Bool.false_eq_true,
                if_false, hcpr, hgid, hpar₁] at h
              rw [Option.some_inj, Prod.mk.injEq] at h
              rw [← h.1]
              exact hlenc

/-- `try_eval` never changes the number of nodes. -/
theorem tryEval_len {V E : Type} (op : V → V → Except E V) (fuel : Nat)
    (F : Forest V) (id : Nat) (F' : Forest V) (res : Except E V)
    (h : tryEval op fuel F id = some (F', res)) : F'.length = F.length := by
  cases hid : F[id]? with
  | none => simp [tryEval, hid] at h
  | some node =>
    cases hpar : node.parent with
    | none =>
      simp only [tryEval, hid, hpar, Option.isNone_none, if_true] at h
      rw [Option.some_inj, Prod.mk.injEq] at h
      rw [← h.1]
    | some pk =>
      cases hcpr : compress op fuel F id with
      | none => simp [tryEval, hid, hpar, hcpr] at h
      | some pr =>
        obtain ⟨Fc, resc⟩ := pr
        have hlenc := compress_len op fuel F id Fc resc hcpr
        cases resc with
        | error e =>
          simp only [tryEval, hid, hpar, Option.isNone_some, Bool.false_eq_true,
            if_false, hcpr] at h
          rw [Option.some_inj, Prod.mk.injEq] at h
          rw [← h.1]
          exact hlenc
        | ok u =>
          cases u
          cases hgid : Fc[id]? with
          | none =>
            simp only [tryEval, hid, hpar, Option.isNone_some, Bool.false_eq_true,
              if_false, hcpr, hgid] at h
            exact Option.noConfusion h
          | some node₁ =>
            cases hpar₁ : node₁.parent with
            | none =>
              simp only [tryEval, hid, hpar, Option.isNone_some, Bool.false_eq_true,
                if_false, hcpr, hgid, hpar₁] at h
              rw [Option.some_inj, Prod.mk.injEq] at h
              rw [← h.1]
              exact hlenc
            | some pk₁ =>
              cases hgp : Fc[pk₁]? with
              | none =>
                simp only [tryEval, hid, hpar, Option.isNone_some, Bool.false_eq_true,
                  if_false, hcpr, hgid, hpar₁, hgp] at h
                exact Option.noConfusion h
              | some parent₁ =>
                simp only [tryEval, hid, hpar, Option.isNone_some, Bool.false_eq_true,
                  if_false, hcpr, hgid, hpar₁, hgp] at h
                rw [Option.some_inj, Prod.mk.injEq] at h
                rw [← h.1]
                exact hlenc

/-- `try_update` never changes the number of nodes. -/
theorem tryUpdate_len {V E : Type} (op : V → V → Except E V) (fuel : Nat)
    (F : Forest V) (id : Nat) (v : V) (F' : Forest V) (res : Except E Unit)
    (h : tryUpdate op fuel F id v = some (F', res)) : F'.length = F.length := by
  cases hid : F[id]? with
  | none => simp [tryUpdate, hid] at h
  | some node =>
    cases hpar : node.parent with
    | none =>
      simp only [tryUpdate, hid, hpar, Option.isNone_none, if_true] at h
      rw [Option.some_inj, Prod.mk.injEq] at h
      rw [← h.1]
      simp
    | some pk =>
      cases hcpr : compress op fuel F id with
      | none => simp [tryUpdate, hid, hpar, hcpr] at h
      | some pr =>
        obtain ⟨Fc, resc⟩ := pr
        have hlenc := compress_len op fuel F id Fc resc hcpr
        cases resc with
        | error e =>
          simp only [tryUpdate, hid, hpar, Option.isNone_some, Bool.false_eq_true,
            if_false, hcpr] at h
          rw [Option.some_inj, Prod.mk.injEq] at h
          rw [← h.1]
          exact hlenc
        | ok u =>
          cases u
          cases hgid : Fc[id]? with
          | none =>
            simp only [tryUpdate, hid, hpar, Option.isNone_some, Bool.false_eq_true,
              if_false, hcpr, hgid] at h
            exact Option.noConfusion h
          | some node₁ =>
            cases hpar₁ : node₁.parent with
            | none =>
              simp only [tryUpdate, hid, hpar, Option.isNone_some, Bool.false_eq_true,
                if_false, hcpr, hgid, hpar₁] at h
              exact Option.noConfusion h
            | some pk₁ =>
              cases hgp : Fc[pk₁]? with
              | none =>
                simp only [tryUpdate, hid, hpar, Option.isNone_some, Bool.false_eq_true,
                  if_false, hcpr, hgid, hpar₁, hgp] at h
                exact Option.noConfusion h
              | some parent₁ =>
                simp only [tryUpdate, hid, hpar, Option.isNone_some, Bool.false_eq_true,
                  if_false, hcpr, hgid, hpar₁, hgp] at h
                rw [Option.some_inj, Prod.mk.injEq] at h
                rw [← h.1]
                simp [hlenc]

/-- `try_link` never changes the number of nodes. -/
theorem tryLink_len {V E : Type} (op : V → V → Except E V) (fuel : Nat)
    (F : Forest V) (a b : Nat) (F' : Forest V) (res : Except E Unit)
    (h : tryLink op fuel F a b = some (F', res)) : F'.length = F.length := by
  cases hra : linkRoot op fuel F a with
  | none => simp [tryLink, hra] at h
  | some prA =>
    obtain ⟨F₁, resA⟩ := prA
    have hlen₁ := linkRoot_len op fuel F a F₁ resA hra
    cases resA with
    | error e =>
      simp only [tryLink, hra] at h
      rw [Option.some_inj, Prod.mk.injEq] at h
      rw [← h.1]
      exact hlen₁
    | ok rootA =>
      cases hrb : linkRoot op fuel F₁ b with
      | none => simp [tryLink, hra, hrb] at h
      | some prB =>
        obtain ⟨F₂, resB⟩ := prB
        have hlen₂ := linkRoot_len op fuel F₁ b F₂ resB hrb
        cases resB with
        | error e =>
          simp only [tryLink, hra, hrb] at h
          rw [Option.some_inj, Prod.mk.injEq] at h
          rw [← h.1]
          rw [hlen₂]
          exact hlen₁
        | ok rootB =>
          cases hgb : F₂[rootB]? with
          | none =>
            simp only [tryLink, hra, hrb, hgb] at h
            exact Option.noConfusion h
          | some nodeB =>
            simp only [tryLink, hra, hrb, hgb] at h
            by_cases hraa : rootA = a
            · rw [if_pos hraa] at h
              rw [Option.some_inj, Prod.mk.injEq] at h
              rw [← h.1]
              simp [hlen₂, hlen₁]
            · rw [if_neg hraa] at h
              cases hga₃ : (F₂.set rootB (⟨some rootA, nodeB.value⟩ : Node V))[a]? with
              | none =>
                cases hgb₃ : (F₂.set rootB (⟨some rootA, nodeB.value⟩ : Node V))[rootB]? with
                | none =>
                  simp only [hga₃, hgb₃] at h
                  exact Option.noConfusion h
                | some nodeB₃ =>
                  simp only [hga₃, hgb₃] at h
                  exact Option.noConfusion h
              | some nodeA =>
                cases hgb₃ : (F₂.set rootB (⟨some rootA, nodeB.value⟩ : Node V))[rootB]? with
                | none =>
                  simp only [hga₃, hgb₃] at h
                  exact Option.noConfusion h
                | some nodeB₃ =>
                  cases hstep : op nodeA.value nodeB₃.value with
                  | error e =>
                    simp only [hga₃, hgb₃, hstep] at h
                    rw [Option.some_inj, Prod.mk.injEq] at h
                    rw [← h.1]
                    simp [hlen₂, hlen₁]
                  | ok newV =>
                    simp only [hga₃, hgb₃, hstep] at h
                    rw [Option.some_inj, Prod.mk.injEq] at h
                    rw [← h.1]
                    simp [hlen₂, hlen₁]

/-! ## Concrete combinators and forests used as witnesses -/

theorem addOp_assoc : AssocM addOp := by
  intro a b c
  show (Except.ok (a + b) >>= fun x => addOp x c) =
    (Except.ok (b + c) >>= fun y => addOp a y)
  rw [okBind, okBind]
  show Except.ok (a + b + c) = Except.ok (a + (b + c))
  rw [Nat.add_assoc]

theorem addOp_total : ∀ x y, ∃ z, addOp x y = Except.ok z :=
  fun x y => ⟨x + y, rfl⟩

theorem cadd8_assoc : AssocM cadd8 := by
  intro a b c
  show ((if a + b ≤ 8 then Except.ok (a + b) else Except.error ()) >>=
      fun x => cadd8 x c) =
    ((if b + c ≤ 8 then Except.ok (b + c) else Except.error ()) >>=
      fun y => cadd8 a y)
  by_cases h1 : a + b ≤ 8
  · rw [if_pos h1, okBind]
    by_cases h2 : b + c ≤ 8
    · rw [if_pos h2, okBind]
      show (if a + b + c ≤ 8 then Except.ok (a + b + c) else Except.error ()) =
        (if a + (b + c) ≤ 8 then Except.ok (a + (b + c)) else Except.error ())
      rw [Nat.add_assoc]
    · rw [if_neg h2, errBind]
      show (if a + b + c ≤ 8 then Except.ok (a + b + c) else Except.error ()) =
        Except.error ()
      rw [if_neg (by omega)]
  · rw [if_neg h1, errBind]
    by_cases h2 : b + c ≤ 8
    · rw [if_pos h2, okBind]
      show Except.error () =
        (if a + (b + c) ≤ 8 then Except.ok (a + (b + c)) else Except.error ())
      rw [if_neg (by omega)]
    · rw [if_neg h2, errBind]

/-- A single fresh root satisfies the invariant against the identity model. -/
theorem inv_single {V E : Type} (op : V → V → Except E V) (v : V) :
    ForestInv op [⟨none, v⟩] ⟨fun n => n, fun _ => v, fun _ => []⟩ := by
  refine ⟨fun m _ => rfl, fun m _ => rfl, ?_, fun n => rfl, fun n => rfl, ?_, ?_, ?_⟩
  · intro n hn; exact hn
  · intro n node hget
    match n with
    | 0 =>
      injection hget with hnode
      subst hnode
      simp
    | m + 1 => simp at hget
  · intro n node hget hpar
    match n with
    | 0 =>
      injection hget with hnode
      subst hnode
      exact ⟨rfl, rfl⟩
    | m + 1 => simp at hget
  · intro n node p hget hpar
    match n with
    | 0 =>
      injection hget with hnode
      subst hnode
      exact absurd hpar (by simp)
    | m + 1 => simp at hget

/-- Two fresh roots satisfy the invariant against the identity model. -/
theorem inv_two {V E : Type} (op : V → V → Except E V) (v0 v1 : V) :
    ForestInv op [⟨none, v0⟩, ⟨none, v1⟩]
      ⟨fun n => n, fun m => if m = 0 then v0 else v1, fun _ => []⟩ := by
  refine ⟨fun m _ => rfl, fun m _ => rfl, ?_, fun n => rfl, fun n => rfl, ?_, ?_, ?_⟩
  · intro n hn; exact hn
  · intro n node hget
    match n with
    | 0 => injection hget with hnode; subst hnode; simp
    | 1 => injection hget with hnode; subst hnode; simp
    | m + 2 => simp at hget
  · intro n node hget hpar
    match n with
    | 0 => injection hget with hnode; subst hnode; exact ⟨rfl, rfl⟩
    | 1 => injection hget with hnode; subst hnode; exact ⟨rfl, rfl⟩
    | m + 2 => simp at hget
  · intro n node p hget hpar
    match n with
    | 0 => injection hget with hnode; subst hnode; exact absurd hpar (by simp)
    | 1 => injection hget with hnode; subst hnode; exact absurd hpar (by simp)
    | m + 2 => simp at hget

/-- A root with one child satisfies the invariant against the evident model. -/
theorem inv_chain2 {V E : Type} (op : V → V → Except E V) (v0 v1 : V) :
    ForestInv op [⟨none, v0⟩, ⟨some 0, v1⟩]
      ⟨fun n => if n = 1 then 0 else n, fun m => if m = 0 then v0 else v1,
        fun n => if n = 1 then [v1] else []⟩ := by
  refine ⟨?_, ?_, ?_, ?_, ?_, ?_, ?_, ?_⟩
  · intro m hm
    simp only [List.length_cons, List.length_nil] at hm
    have h1 : m ≠ 1 := by omega
    simp [h1]
  · intro m hm
    simp only [List.length_cons, List.length_nil] at hm
    have h1 : m ≠ 1 := by omega
    simp [h1]
  · intro n hn
    simp only [List.length_cons, List.length_nil] at hn
    by_cases h1 : n = 1
    · simp [h1]
    · simp only [List.length_cons, List.length_nil]
      simp [h1]
      omega
  · intro n
    by_cases h1 : n = 1
    · simp [h1]
    · simp [h1]
  · intro n
    by_cases h1 : n = 1
    · simp [h1]
    · simp [h1]
  · intro n node hget
    match n with
    | 0 => injection hget with hnode; subst hnode; simp
    | 1 =>
      injection hget with hnode
      subst hnode
      simp
    | m + 2 => simp at hget
  · intro n node hget hpar
    match n with
    | 0 => injection hget with hnode; subst hnode; exact ⟨rfl, rfl⟩
    | 1 =>
      injection hget with hnode
      subst hnode
      exact absurd hpar (by simp)
    | m + 2 => simp at hget
  · intro n node p hget hpar
    match n with
    | 0 =>
      injection hget with hnode
      subst hnode
      exact absurd hpar (by simp)
    | 1 =>
      injection hget with hnode
      subst hnode
      have hp0 : p = 0 := by simpa using hpar.symm
      subst hp0
      refine ⟨by simp, rfl, v1, [], by simp, ?_⟩
      rw [List.foldlM_nil]
      rfl
    | m + 2 => simp at hget

/-- A three-node chain satisfies the invariant against the evident model. -/
theorem inv_chain3 {V E : Type} (op : V → V → Except E V) (v0 v1 v2 : V) :
    ForestInv op [⟨none, v0⟩, ⟨some 0, v1⟩, ⟨some 1, v2⟩]
      ⟨fun n => if n ≤ 2 then 0 else n, fun _ => v0,
        fun n => if n = 1 then [v1] else if n = 2 then [v1, v2] else []⟩ := by
  refine ⟨?_, ?_, ?_, ?_, ?_, ?_, ?_, ?_⟩
  · intro m hm
    simp only [List.length_cons, List.length_nil] at hm
    have h1 : ¬ m ≤ 2 := by omega
    simp [h1]
  · intro m hm
    simp only [List.length_cons, List.length_nil] at hm
    have h1 : m ≠ 1 := by omega
    have h2 : m ≠ 2 := by omega
    simp [h1, h2]
  · intro n hn
    simp only [List.length_cons, List.length_nil] at hn
    have h1 : n ≤ 2 := by omega
    simp [h1]
  · intro n
    by_cases h1 : n ≤ 2
    · simp [h1]
    · simp [h1]
  · intro n
    by_cases h1 : n ≤ 2
    · simp [h1]
    · have h2 : n ≠ 1 := by omega
      have h3 : n ≠ 2 := by omega
      simp [h1, h2, h3]
  · intro n node hget
    match n with
    | 0 => injection hget with hnode; subst hnode; simp
    | 1 => injection hget with hnode; subst hnode; simp
    | 2 => injection hget with hnode; subst hnode; simp
    | m + 3 => simp at hget
  · intro n node hget hpar
    match n with
    | 0 => injection hget with hnode; subst hnode; exact ⟨rfl, rfl⟩
    | 1 => injection hget with hnode; subst hnode; exact absurd hpar (by simp)
    | 2 => injection hget with hnode; subst hnode; exact absurd hpar (by simp)
    | m + 3 => simp at hget
  · intro n node p hget hpar
    match n with
    | 0 =>
      injection hget with hnode
      subst hnode
      exact absurd hpar (by simp)
    | 1 =>
      injection hget with hnode
      subst hnode
      have hp0 : p = 0 := by simpa using hpar.symm
      subst hp0
      refine ⟨by simp, rfl, v1, [], by simp, ?_⟩
      rw [List.foldlM_nil]
      rfl
    | 2 =>
      injection hget with hnode
      subst hnode
      have hp1 : p = 1 := by simpa using hpar.symm
      subst hp1
      refine ⟨by simp, rfl, v2, [], by simp, ?_⟩
      rw [List.foldlM_nil]
      rfl
    | m + 3 => simp at hget

/-- Once a node is its own parent, `compress` on it never returns, for any
amount of fuel: the recursion never reaches a root. -/
theorem compress_self_cycle {V E : Type} (op : V → V → Except E V) {F : Forest V}
    {r : Nat} {rnode : Node V} (hr : F[r]? = some rnode)
    (hrp : rnode.parent = some r) :
    ∀ fuel, compress op fuel F r = none := by
  intro fuel
  induction fuel with
  | zero => rfl
  | succ fuel ih => simp [compress, hr, hrp, ih]

/-- Any node on a parent chain leading to a self-parented node has a record
and a parent. -/
theorem chain_to_cycle_nonroot {V : Type} {F : Forest V} {r : Nat}
    {rnode : Node V} (hr : F[r]? = some rnode) (hrp : rnode.parent = some r) :
    ∀ (j n : Nat), iterParent F n j = some r →
      ∃ node q, F[n]? = some node ∧ node.parent = some q := by
  intro j
  cases j with
  | zero =>
    intro n hit
    injection hit with hnr
    subst hnr
    exact ⟨rnode, _, hr, hrp⟩
  | succ j =>
    intro n hit
    cases hn : F[n]? with
    | none => simp [iterParent, hn] at hit
    | some node =>
      cases hnp : node.parent with
      | none => simp [iterParent, hn, hnp] at hit
      | some p => exact ⟨node, p, rfl, hnp⟩

/-- `compress` diverges (returns `none` for every fuel) from any node whose
parent chain reaches a self-parented node. -/
theorem compress_chain_cycle {V E : Type} (op : V → V → Except E V) {F : Forest V}
    {r : Nat} {rnode : Node V} (hr : F[r]? = some rnode)
    (hrp : rnode.parent = some r) :
    ∀ (j n : Nat), iterParent F n j = some r →
      ∀ fuel, compress op fuel F n = none := by
  intro j
  induction j with
  | zero =>
    intro n hit fuel
    injection hit with hnr
    subst hnr
    exact compress_self_cycle op hr hrp fuel
  | succ j ih =>
    intro n hit fuel
    cases hn : F[n]? with
    | none => simp [iterParent, hn] at hit
    | some node =>
      cases hnp : node.parent with
      | none => simp [iterParent, hn, hnp] at hit
      | some p =>
        have hit' : iterParent F p j = some r := by
          simpa [iterParent, hn, hnp] using hit
        obtain ⟨pnode, q, hp, hpq⟩ := chain_to_cycle_nonroot hr hrp j p hit'
        cases fuel with
        | zero => rfl
        | succ fuel₂ => simp [compress, hn, hnp, hp, hpq, ih p hit' fuel₂]

/-- `try_eval` diverges from any node whose parent chain reaches a
self-parented node. -/
theorem tryEval_chain_cycle {V E : Type} (op : V → V → Except E V) {F : Forest V}
    {r : Nat} {rnode : Node V} (hr : F[r]? = some rnode)
    (hrp : rnode.parent = some r) :
    ∀ (j n : Nat), iterParent F n j = some r →
      ∀ fuel, tryEval op fuel F n = none := by
  intro j n hit fuel
  obtain ⟨node, q, hn, hnq⟩ := chain_to_cycle_nonroot hr hrp j n hit
  simp [tryEval, hn, hnq, compress_chain_cycle op hr hrp j n hit fuel]

/-! ## The claims -/

/-- C1: for every forest built from the empty forest by any sequence of
`new_root`, `try_link` (applied only to nodes in distinct trees, and
succeeding), and `try_update` calls (failing `try_eval`/`try_update` calls
allowed as well), with a mathematically associative combinator,
`try_eval(id)` returns exactly the left-to-right ⊕-fold of the original
values on the path from the root of `id`'s tree down to and including `id`,
as given by the reference model that never compresses; for a root this is
its own current value. -/
theorem c1_eval_is_reference_fold {V E : Type} (op : V → V → Except E V)
    (hop : AssocM op) {F : Forest V} {M : Model V} (hb : Built op F M)
    {id : Nat} (hid : id < F.length) {fuel : Nat}
    (hfuel : (M.path id).length ≤ fuel) :
    ∃ F', tryEval op fuel F id = some (F', pathFoldM op M id) := by
  have hInv := built_inv hop hb
  obtain ⟨node, hgid⟩ := get?_is_some hid
  obtain ⟨⟨F', res⟩, heval⟩ := tryEval_total hop hInv hgid hfuel
  obtain ⟨_, _, hres, _⟩ := tryEval_spec hop hInv heval
  exact ⟨F', hres ▸ heval⟩

theorem c1_witness :
    ∃ F', tryEval addOp 1 (newRoot ([] : Forest Nat) 2).1 0 =
      some (F', Except.ok 2) := by
  have h := @c1_eval_is_reference_fold Nat Empty addOp addOp_assoc _ _
    (Built.newroot 2 (Built.empty (fun _ => 0))) 0 (by decide) 1 (by decide)
  obtain ⟨F', hF⟩ := h
  refine ⟨F', ?_⟩
  rw [hF]
  rfl

theorem cexBuilt : Built cadd8 cexForest cexModel := by
  have h0 : Built cadd8 [] (⟨fun n => n, fun _ => 0, fun _ => []⟩ : Model Nat) :=
    Built.empty (fun _ => 0)
  have h1 := Built.newroot 3 h0
  have h2 := Built.newroot 4 h1
  have hlink : tryLink cadd8 1 (newRoot (newRoot ([] : Forest Nat) 3).1 4).1 0 1 =
      some ([⟨none, 3⟩, ⟨some 0, 4⟩], Except.ok ()) := rfl
  have h3 := Built.link h2 (by decide) (by decide) (by decide) hlink
  have h4 := Built.newroot 5 h3
  exact h4

theorem c2_counterexample :
    AssocM cadd8 ∧
    Built cadd8 cexForest cexModel ∧
    cexModel.root 1 ≠ cexModel.root 2 ∧
    tryLink cadd8 1 cexForest 1 2 =
      some ([⟨none, 3⟩, ⟨some 0, 4⟩, ⟨some 0, 5⟩], Except.error ()) ∧
    ¬ SpecInv cadd8 [⟨none, 3⟩, ⟨some 0, 4⟩, ⟨some 0, 5⟩] (linkModel cexModel 1 2) ∧
    ¬ SpecInv cadd8 [⟨none, 3⟩, ⟨some 0, 4⟩, ⟨some 0, 5⟩] cexModel := by
  refine ⟨cadd8_assoc, cexBuilt, by decide, rfl, ?_, ?_⟩
  · intro hspec
    have h := hspec 2 ⟨some 0, 5⟩ 0 ⟨none, 3⟩ rfl rfl rfl rfl
    have h2 : pathFoldM cadd8 (linkModel cexModel 1 2) 2 = Except.error () := rfl
    rw [h2] at h
    have h3 : cadd8 3 5 = Except.ok 8 := rfl
    rw [h3] at h
    exact Except.noConfusion h
  · intro hspec
    have h := hspec 2 ⟨some 0, 5⟩ 0 ⟨none, 3⟩ rfl rfl rfl rfl
    have h2 : pathFoldM cadd8 cexModel 2 = Except.ok 5 := rfl
    rw [h2] at h
    have h3 : cadd8 3 5 = Except.ok 8 := rfl
    rw [h3] at h
    injection h with hv
    exact absurd hv (by decide)

/-- C2 (amended): `new_root` always preserves the compression invariant;
`try_eval` preserves it whether it succeeds or fails; `try_update` preserves
it (against the updated reference model on success); and a `try_link` on
distinct trees that returns `Ok` preserves it against the link reference
model.  (A `try_link` whose compensation associate fails violates it — see
the counterexample.) -/
theorem c2_ops_preserve_invariant {V E : Type} (op : V → V → Except E V)
    (hop : AssocM op) (F : Forest V) (M : Model V) (hInv : ForestInv op F M) :
    (∀ v, SpecInv op (newRoot F v).1 (addRootModel M F.length v)) ∧
    (∀ fuel id F' res, tryEval op fuel F id = some (F', res) → SpecInv op F' M) ∧
    (∀ fuel id v F', tryUpdate op fuel F id v = some (F', Except.ok ()) →
      SpecInv op F' (updModel M id v)) ∧
    (∀ fuel id v F' e, tryUpdate op fuel F id v = some (F', Except.error e) →
      SpecInv op F' M) ∧
    (∀ fuel a b F', M.root a ≠ M.root b →
      tryLink op fuel F a b = some (F', Except.ok ()) →
      SpecInv op F' (linkModel M a b)) := by
  refine ⟨?_, ?_, ?_, ?_, ?_⟩
  · intro v
    exact inv_specInv hop (inv_newRoot hInv v)
  · intro fuel id F' res h
    exact inv_specInv hop (tryEval_spec hop hInv h).2.1
  · intro fuel id v F' h
    exact inv_specInv hop ((tryUpdate_spec hop hInv h).2.1 rfl).1
  · intro fuel id v F' e h
    exact inv_specInv hop ((tryUpdate_spec hop hInv h).2.2 e rfl).1
  · intro fuel a b F' hne h
    exact inv_specInv hop (tryLink_spec hop hInv hne h).2.1

theorem c2_witness :
    SpecInv addOp [(⟨none, 5⟩ : Node Nat), ⟨some 0, 6⟩]
      (linkModel ⟨fun n => n, fun m => if m = 0 then 5 else 6, fun _ => []⟩ 0 1) := by
  have h := c2_ops_preserve_invariant addOp addOp_assoc
    [(⟨none, 5⟩ : Node Nat), ⟨none, 6⟩]
    ⟨fun n => n, fun m => if m = 0 then 5 else 6, fun _ => []⟩
    (inv_two addOp 5 6)
  have hlink : tryLink addOp 1 [(⟨none, 5⟩ : Node Nat), ⟨none, 6⟩] 0 1 =
      some ([⟨none, 5⟩, ⟨some 0, 6⟩], Except.ok ()) := rfl
  have h2 := h.2.2.2.2 1 0 1 [⟨none, 5⟩, ⟨some 0, 6⟩] (by decide) hlink
  intro n node p pnode hgn hpn hgp hproot
  exact h2 n node p pnode hgn hpn hgp hproot

theorem c3_counterexample :
    AssocM cadd8 ∧
    Built cadd8 cexForest cexModel ∧
    cexModel.root 1 ≠ cexModel.root 2 ∧
    cexModel.root 1 = 0 ∧ cexModel.root 2 = 2 ∧ cexModel.root 1 ≠ 1 ∧
    tryLink cadd8 1 cexForest 1 2 =
      some ([⟨none, 3⟩, ⟨some 0, 4⟩, ⟨some 0, 5⟩], Except.error ()) ∧
    ([⟨none, 3⟩, ⟨some 0, 4⟩, ⟨some 0, 5⟩] : Forest Nat)[2]? = some ⟨some 0, 5⟩ ∧
    cexForest[2]? = some ⟨none, 5⟩ ∧
    cadd8 4 5 = Except.error () := by
  exact ⟨cadd8_assoc, cexBuilt, by decide, rfl, rfl, by decide, rfl, rfl, rfl, rfl⟩

/-- C3 (amended): an `associate` failure in `compress` commits no
parent/value update for the failing node and preserves the invariant, and
failing `try_eval`/`try_update` calls preserve the invariant (nodes fully
compressed earlier in the same call keep their compressed state, which the
preserved invariant witnesses); but a `try_link` whose compensation
associate fails leaves the root of `b`'s tree already reparented under the
root of `a`'s tree with its uncompensated value. -/
theorem c3_failure_containment {V E : Type} (op : V → V → Except E V)
    (hop : AssocM op) (F : Forest V) (M : Model V) (hInv : ForestInv op F M) :
    (∀ fuel k F' e, compress op fuel F k = some (F', Except.error e) →
      F'[k]? = F[k]? ∧ ForestInv op F' M) ∧
    (∀ fuel id F' e, tryEval op fuel F id = some (F', Except.error e) →
      ForestInv op F' M) ∧
    (∀ fuel id v F' e, tryUpdate op fuel F id v = some (F', Except.error e) →
      ForestInv op F' M) ∧
    (∀ fuel a b F' e, M.root a ≠ M.root b →
      tryLink op fuel F a b = some (F', Except.error e) →
      (ForestInv op F' M ∨
        (M.root a ≠ a ∧ ∃ w,
          F'[M.root b]? = some ⟨some (M.root a), M.rvals (M.root b)⟩ ∧
          (∃ h t, M.path a = h :: t ∧ List.foldlM op h t = Except.ok w) ∧
          op w (M.rvals (M.root b)) = Except.error e))) := by
  refine ⟨?_, ?_, ?_, ?_⟩
  · intro fuel k F' e h
    obtain ⟨_, hInv', _, _, herr, _⟩ := compress_spec hop fuel F M k F' _ hInv h
    exact ⟨(herr e rfl).1, hInv'⟩
  · intro fuel id F' e h
    exact (tryEval_spec hop hInv h).2.1
  · intro fuel id v F' e h
    exact ((tryUpdate_spec hop hInv h).2.2 e rfl).1
  · intro fuel a b F' e hne h
    exact (tryLink_err hop hInv hne h).2

theorem c3_witness :
    ([(⟨none, 7⟩ : Node Nat), ⟨some 0, 6⟩, ⟨some 1, 5⟩] : Forest Nat)[2]? =
      ([(⟨none, 7⟩ : Node Nat), ⟨some 0, 6⟩, ⟨some 1, 5⟩] : Forest Nat)[2]? ∧
    ForestInv cadd8 [⟨none, 7⟩, ⟨some 0, 6⟩, ⟨some 1, 5⟩]
      ⟨fun n => if n ≤ 2 then 0 else n, fun _ => 7,
        fun n => if n = 1 then [6] else if n = 2 then [6, 5] else []⟩ := by
  have h := c3_failure_containment cadd8 cadd8_assoc _ _ (inv_chain3 cadd8 7 6 5)
  exact h.1 2 2 [⟨none, 7⟩, ⟨some 0, 6⟩, ⟨some 1, 5⟩] () rfl

/-- C4: a successful `try_link` on distinct trees attaches the root of `b`'s
tree as a direct child of the structural root of `a`'s tree (never literally
at `a`), compensating with `a`'s compressed stored value when `a` is not a
root; the fold at the attached root equals `fold(root_a→a) ⊕ (old value of
b's root)`, and all subsequent eval results agree with the reference model
that conceptually attaches directly at `a`. -/
theorem c4_link_compensated_attachment {V E : Type} (op : V → V → Except E V)
    (hop : AssocM op) {fuel : Nat} {F F' : Forest V} {M : Model V} {a b : Nat}
    (hInv : ForestInv op F M) (hab : M.root a ≠ M.root b)
    (h : tryLink op fuel F a b = some (F', Except.ok ())) :
    (∃ newV, F'[M.root b]? = some ⟨some (M.root a), newV⟩ ∧
      ((M.root a = a ∧ newV = M.rvals (M.root b)) ∨
        (M.root a ≠ a ∧ ∃ w,
          (∃ h t, M.path a = h :: t ∧ List.foldlM op h t = Except.ok w) ∧
          op w (M.rvals (M.root b)) = Except.ok newV))) ∧
    ForestInv op F' (linkModel M a b) ∧
    pathFoldM op (linkModel M a b) (M.root b) =
      (pathFoldM op M a >>= fun x => op x (M.rvals (M.root b))) ∧
    (∀ n, n < F'.length → ∀ fuel₂, ((linkModel M a b).path n).length ≤ fuel₂ →
      ∃ F'', tryEval op fuel₂ F' n = some (F'', pathFoldM op (linkModel M a b) n)) := by
  obtain ⟨hlen, hInv', hnewV⟩ := tryLink_spec hop hInv hab h
  refine ⟨hnewV, hInv', ?_, ?_⟩
  · have hrbroot : M.root (M.root b) = M.root b := hInv.rootIdem b
    have hrbpath : M.path (M.root b) = [] := hInv.rootPath b
    show List.foldlM op
        ((linkModel M a b).rvals ((linkModel M a b).root (M.root b)))
        ((linkModel M a b).path (M.root b)) =
      (List.foldlM op (M.rvals (M.root a)) (M.path a) >>= fun x =>
        op x (M.rvals (M.root b)))
    simp only [linkModel, if_pos hrbroot]
    rw [hrbpath, List.foldlM_append]
    refine bind_congr (fun x => ?_)
    simp only [List.foldlM_cons, List.foldlM_nil, bind_pure]
  · intro n hn fuel₂ hfuel₂
    obtain ⟨node, hgn⟩ := get?_is_some hn
    obtain ⟨⟨F'', res⟩, heval⟩ := tryEval_total hop hInv' hgn hfuel₂
    obtain ⟨_, _, hres, _⟩ := tryEval_spec hop hInv' heval
    exact ⟨F'', hres ▸ heval⟩

theorem c4_witness :
    ∃ F'', tryEval addOp 1 [(⟨none, 1⟩ : Node Nat), ⟨some 0, 2⟩] 1 =
      some (F'', Except.ok 3) := by
  have hlink : tryLink addOp 1 [(⟨none, 1⟩ : Node Nat), ⟨none, 2⟩] 0 1 =
      some ([⟨none, 1⟩, ⟨some 0, 2⟩], Except.ok ()) := rfl
  have h := c4_link_compensated_attachment addOp addOp_assoc
    (inv_two addOp 1 2) (by decide) hlink
  have h2 := h.2.2.2 1 (by decide) 1 (by decide)
  obtain ⟨F'', hF⟩ := h2
  refine ⟨F'', ?_⟩
  rw [hF]
  rfl

/-- C5: a successful `try_update(id, v)` overwrites the value held at the
root of `id`'s tree — directly when `id` is a root, otherwise after
compressing `id` so that `id`'s parent is the true root; a non-root `id`
keeps its own compressed record (the path fold), not the new value; and all
subsequent eval results in that tree reflect `v` as the root's value. -/
theorem c5_update_overwrites_root {V E : Type} (op : V → V → Except E V)
    (hop : AssocM op) {fuel : Nat} {F F' : Forest V} {M : Model V} {id : Nat}
    {v : V} (hInv : ForestInv op F M)
    (h : tryUpdate op fuel F id v = some (F', Except.ok ())) :
    F'[M.root id]? = some ⟨none, v⟩ ∧
    (M.root id ≠ id → ∃ w, F'[id]? = some ⟨some (M.root id), w⟩ ∧
      ∃ h t, M.path id = h :: t ∧ List.foldlM op h t = Except.ok w) ∧
    ForestInv op F' (updModel M id v) ∧
    (∀ n, n < F'.length → M.root n = M.root id → ∀ fuel₂,
      (M.path n).length ≤ fuel₂ →
      ∃ F'', tryEval op fuel₂ F' n = some (F'', List.foldlM op v (M.path n))) := by
  obtain ⟨hlen, hok, _⟩ := tryUpdate_spec hop hInv h
  obtain ⟨hInv', hroot, hcomp⟩ := hok rfl
  refine ⟨hroot, hcomp, hInv', ?_⟩
  intro n hn hsame fuel₂ hfuel₂
  obtain ⟨node, hgn⟩ := get?_is_some hn
  obtain ⟨⟨F'', res⟩, heval⟩ := tryEval_total hop hInv' hgn hfuel₂
  obtain ⟨_, _, hres, _⟩ := tryEval_spec hop hInv' heval
  have hpf : pathFoldM op (updModel M id v) n = List.foldlM op v (M.path n) := by
    show List.foldlM op (if M.root n = M.root id then v else M.rvals (M.root n))
      (M.path n) = List.foldlM op v (M.path n)
    rw [if_pos hsame]
  refine ⟨F'', ?_⟩
  rw [heval, hres, hpf]

theorem c5_witness :
    ([(⟨none, 9⟩ : Node Nat), ⟨some 0, 2⟩] : Forest Nat)[0]? = some ⟨none, 9⟩ ∧
    (∃ F'', tryEval addOp 1 [(⟨none, 9⟩ : Node Nat), ⟨some 0, 2⟩] 1 =
      some (F'', Except.ok 11)) := by
  have hupd : tryUpdate addOp 1 [(⟨none, 1⟩ : Node Nat), ⟨some 0, 2⟩] 1 9 =
      some ([⟨none, 9⟩, ⟨some 0, 2⟩], Except.ok ()) := rfl
  have h := c5_update_overwrites_root addOp addOp_assoc (inv_chain2 addOp 1 2) hupd
  refine ⟨h.1, ?_⟩
  have h2 := h.2.2.2 1 (by decide) rfl 1 (by decide)
  obtain ⟨F'', hF⟩ := h2
  refine ⟨F'', ?_⟩
  rw [hF]
  rfl

/-- C6: calling `try_eval` twice on the same handle with no intervening
`try_link`/`try_update` yields the same result both times, and the second
call performs no structural change at all (it returns the same forest). -/
theorem c6_eval_idempotent {V E : Type} (op : V → V → Except E V) (hop : AssocM op)
    {fuel : Nat} {F F' : Forest V} {M : Model V} {id : Nat} {res : Except E V}
    (hInv : ForestInv op F M) (h : tryEval op fuel F id = some (F', res)) :
    tryEval op fuel F' id = some (F', res) :=
  (tryEval_spec hop hInv h).2.2.2 fuel (Nat.le_refl fuel)

theorem c6_witness :
    tryEval addOp 2 [(⟨none, 1⟩ : Node Nat), ⟨some 0, 2⟩, ⟨some 0, 5⟩] 2 =
      some ([⟨none, 1⟩, ⟨some 0, 2⟩, ⟨some 0, 5⟩], Except.ok 6) := by
  have heval : tryEval addOp 2 [(⟨none, 1⟩ : Node Nat), ⟨some 0, 2⟩, ⟨some 1, 3⟩] 2 =
      some ([⟨none, 1⟩, ⟨some 0, 2⟩, ⟨some 0, 5⟩], Except.ok 6) := rfl
  exact c6_eval_idempotent addOp addOp_assoc (inv_chain3 addOp 1 2 3) heval

/-- C7: `try_eval`, `try_link` and `try_update` return an error exactly when
some invocation of the combinator's `associate` fails during the call (the
error is that invocation's error); with a combinator that cannot fail they
always return `Ok`; and for an `Infallible` (`Empty`) error type the
unwrapping convenience forms `eval`, `link` and `update` never fail. -/
theorem c7_errors_iff_associate {V E : Type} (op : V → V → Except E V)
    (hop : AssocM op) (F : Forest V) (M : Model V) (hInv : ForestInv op F M) :
    (∀ fuel id F' e, tryEval op fuel F id = some (F', Except.error e) →
      ∃ x y, op x y = Except.error e) ∧
    (∀ fuel id v F' e, tryUpdate op fuel F id v = some (F', Except.error e) →
      ∃ x y, op x y = Except.error e) ∧
    (∀ fuel a b F' e, M.root a ≠ M.root b →
      tryLink op fuel F a b = some (F', Except.error e) →
      ∃ x y, op x y = Except.error e) ∧
    ((∀ x y, ∃ z, op x y = Except.ok z) →
      (∀ fuel id F' res, tryEval op fuel F id = some (F', res) →
        ∃ w, res = Except.ok w) ∧
      (∀ fuel id v F' res, tryUpdate op fuel F id v = some (F', res) →
        res = Except.ok ()) ∧
      (∀ fuel a b F' res, M.root a ≠ M.root b →
        tryLink op fuel F a b = some (F', res) → res = Except.ok ())) ∧
    (∀ (V₂ : Type) (op₂ : V₂ → V₂ → Except Empty V₂) (fuel₂ : Nat)
      (F₂ F₂' : Forest V₂) (id₂ : Nat) (r : Except Empty V₂),
      tryEval op₂ fuel₂ F₂ id₂ = some (F₂', r) →
      ∃ w, evalInfallible op₂ fuel₂ F₂ id₂ = some (F₂', w)) ∧
    (∀ (V₂ : Type) (op₂ : V₂ → V₂ → Except Empty V₂) (fuel₂ : Nat)
      (F₂ F₂' : Forest V₂) (a₂ b₂ : Nat) (r : Except Empty Unit),
      tryLink op₂ fuel₂ F₂ a₂ b₂ = some (F₂', r) →
      linkInfallible op₂ fuel₂ F₂ a₂ b₂ = some F₂') ∧
    (∀ (V₂ : Type) (op₂ : V₂ → V₂ → Except Empty V₂) (fuel₂ : Nat)
      (F₂ F₂' : Forest V₂) (id₂ : Nat) (v₂ : V₂) (r : Except Empty Unit),
      tryUpdate op₂ fuel₂ F₂ id₂ v₂ = some (F₂', r) →
      updateInfallible op₂ fuel₂ F₂ id₂ v₂ = some F₂') := by
  refine ⟨?_, ?_, ?_, ?_, ?_, ?_, ?_⟩
  · intro fuel id F' e h
    have hres := (tryEval_spec hop hInv h).2.2.1
    rw [pathFoldM] at hres
    exact foldlM_err_exists hres.symm
  · intro fuel id v F' e h
    obtain ⟨_, _, herr⟩ := tryUpdate_spec hop hInv h
    obtain ⟨_, ph, pt, _, hfolde⟩ := herr e rfl
    exact foldlM_err_exists hfolde
  · intro fuel a b F' e hne h
    exact (tryLink_err hop hInv hne h).1
  · intro hok
    refine ⟨?_, ?_, ?_⟩
    · intro fuel id F' res h
      have hres := (tryEval_spec hop hInv h).2.2.1
      rw [pathFoldM] at hres
      obtain ⟨z, hz⟩ := foldlM_ok_total hok (M.path id) (M.rvals (M.root id))
      exact ⟨z, by rw [hres, hz]⟩
    · intro fuel id v F' res h
      cases res with
      | ok u => cases u; rfl
      | error e =>
        obtain ⟨_, _, herr⟩ := tryUpdate_spec hop hInv h
        obtain ⟨_, ph, pt, _, hfolde⟩ := herr e rfl
        obtain ⟨z, hz⟩ := foldlM_ok_total hok pt ph
        rw [hz] at hfolde
        exact Except.noConfusion hfolde
    · intro fuel a b F' res hne h
      cases res with
      | ok u => cases u; rfl
      | error e =>
        obtain ⟨x, y, hxy⟩ := (tryLink_err hop hInv hne h).1
        obtain ⟨z, hz⟩ := hok x y
        rw [hz] at hxy
        exact Except.noConfusion hxy
  · intro V₂ op₂ fuel₂ F₂ F₂' id₂ r h
    cases r with
    | ok w => exact ⟨w, by simp [evalInfallible, h]⟩
    | error e => exact e.elim
  · intro V₂ op₂ fuel₂ F₂ F₂' a₂ b₂ r h
    cases r with
    | ok u =>
      cases u
      simp [linkInfallible, h]
    | error e => exact e.elim
  · intro V₂ op₂ fuel₂ F₂ F₂' id₂ v₂ r h
    cases r with
    | ok u =>
      cases u
      simp [updateInfallible, h]
    | error e => exact e.elim

theorem c7_witness : ∃ x y, cadd8 x y = Except.error () := by
  have h := c7_errors_iff_associate cadd8 cadd8_assoc _ _ (inv_chain3 cadd8 7 6 5)
  exact h.1 2 2 [⟨none, 7⟩, ⟨some 0, 6⟩, ⟨some 1, 5⟩] () rfl

/-- C8: for a fresh root `r` with value `v`, `eval(r) = v`; after creating
roots `A`, `B` with values `va`, `vb` and linking `link(A, B)`, `eval(B) =
associate(va, vb)` and `eval(A) = va` (the root's own fold is unaffected by
its children).  Stated for an arbitrary combinator. -/
theorem c8_small_folds {V E : Type} (op : V → V → Except E V) (v va vb : V) :
    tryEval op 1 [⟨none, v⟩] 0 = some ([⟨none, v⟩], Except.ok v) ∧
    newRoot ([] : Forest V) va = ([⟨none, va⟩], 0) ∧
    newRoot [⟨none, va⟩] vb = ([⟨none, va⟩, ⟨none, vb⟩], 1) ∧
    tryLink op 1 [⟨none, va⟩, ⟨none, vb⟩] 0 1 =
      some ([⟨none, va⟩, ⟨some 0, vb⟩], Except.ok ()) ∧
    tryEval op 1 [⟨none, va⟩, ⟨some 0, vb⟩] 1 =
      some ([⟨none, va⟩, ⟨some 0, vb⟩], op va vb) ∧
    tryEval op 1 [⟨none, va⟩, ⟨some 0, vb⟩] 0 =
      some ([⟨none, va⟩, ⟨some 0, vb⟩], Except.ok va) :=
  ⟨rfl, rfl, rfl, rfl, rfl, rfl⟩

/-- C9: `new_root` always succeeds (it takes no combinator and invokes no
`associate`), appends exactly one parentless node holding the given value,
leaves every existing node unchanged, and returns the old length as the
handle — strictly greater than every handle previously issued, since every
previously issued handle is an index below the current length and the other
three operations never change the length. -/
theorem c9_new_root_appends {V E : Type} (op : V → V → Except E V)
    (F : Forest V) (v : V) :
    (newRoot F v).1 = F ++ [⟨none, v⟩] ∧
    (newRoot F v).2 = F.length ∧
    (newRoot F v).1.length = F.length + 1 ∧
    (newRoot F v).1[F.length]? = some ⟨none, v⟩ ∧
    (∀ i, i < F.length → (newRoot F v).1[i]? = F[i]?) ∧
    (∀ i, i < F.length → i < (newRoot F v).2) ∧
    (∀ fuel id F' res, tryEval op fuel F id = some (F', res) →
      F'.length = F.length) ∧
    (∀ fuel id w F' res, tryUpdate op fuel F id w = some (F', res) →
      F'.length = F.length) ∧
    (∀ fuel a b F' res, tryLink op fuel F a b = some (F', res) →
      F'.length = F.length) := by
  refine ⟨rfl, rfl, by simp [newRoot], ?_, ?_, ?_, ?_, ?_, ?_⟩
  · show (F ++ [(⟨none, v⟩ : Node V)])[F.length]? = some ⟨none, v⟩
    rw [List.getElem?_append_right (Nat.le_refl _)]
    simp
  · intro i hi
    show (F ++ [(⟨none, v⟩ : Node V)])[i]? = F[i]?
    exact List.getElem?_append_left hi
  · intro i hi
    exact hi
  · intro fuel id F' res h
    exact tryEval_len op fuel F id F' res h
  · intro fuel id w F' res h
    exact tryUpdate_len op fuel F id w F' res h
  · intro fuel a b F' res h
    exact tryLink_len op fuel F a b F' res h

theorem c9_witness :
    (newRoot [(⟨none, 1⟩ : Node Nat)] 2).2 = 1 ∧
    (newRoot [(⟨none, 1⟩ : Node Nat)] 2).1 = [⟨none, 1⟩, ⟨none, 2⟩] ∧
    0 < (newRoot [(⟨none, 1⟩ : Node Nat)] 2).2 := by
  have h := c9_new_root_appends addOp [(⟨none, 1⟩ : Node Nat)] 2
  exact ⟨h.2.1, h.1, h.2.2.2.2.2.1 0 (by decide)⟩

/-- C10: if `try_link(a, b)` is applied to two nodes of the same tree (with
a combinator that cannot fail, so the call runs to completion), the shared
root's parent pointer ends up pointing at the shared root itself — a cycle
in the parent graph — and afterwards `try_eval` on any node whose parent
chain reaches that root never terminates (returns `none` for every fuel).
Termination therefore holds only under the unstated precondition that link
joins distinct trees. -/
theorem c10_same_tree_link_diverges {V E : Type} (op : V → V → Except E V)
    (hop : AssocM op) (hok : ∀ x y, ∃ z, op x y = Except.ok z)
    {fuel : Nat} {F F' : Forest V} {M : Model V} {a b : Nat}
    {res : Except E Unit} (hInv : ForestInv op F M) (hab : M.root a = M.root b)
    (h : tryLink op fuel F a b = some (F', res)) :
    (∃ node, F'[M.root a]? = some node ∧ node.parent = some (M.root a)) ∧
    (∀ n j, iterParent F' n j = some (M.root a) →
      ∀ fuel₂, tryEval op fuel₂ F' n = none) := by
  cases hra : linkRoot op fuel F a with
  | none => simp [tryLink, hra] at h
  | some prA =>
    obtain ⟨F₁, resA⟩ := prA
    cases resA with
    | error e =>
      obtain ⟨_, _, _, _, _, herrA⟩ := linkRoot_spec hop hInv hra
      obtain ⟨ph, pt, _, hfolde⟩ := herrA e rfl
      obtain ⟨z, hz⟩ := foldlM_ok_total hok pt ph
      rw [hz] at hfolde
      exact Except.noConfusion hfolde
    | ok rootA =>
      obtain ⟨halt, hlen₁, hInv₁, hframe₁, hokA, _⟩ := linkRoot_spec hop hInv hra
      obtain ⟨hrA, hcompA⟩ := hokA rootA rfl
      subst hrA
      cases hrb : linkRoot op fuel F₁ b with
      | none => simp [tryLink, hra, hrb] at h
      | some prB =>
        obtain ⟨F₂, resB⟩ := prB
        cases resB with
        | error e =>
          obtain ⟨_, _, _, _, _, herrB⟩ := linkRoot_spec hop hInv₁ hrb
          obtain ⟨ph, pt, _, hfolde⟩ := herrB e rfl
          obtain ⟨z, hz⟩ := foldlM_ok_total hok pt ph
          rw [hz] at hfolde
          exact Except.noConfusion hfolde
        | ok rootB =>
          obtain ⟨hblt₁, hlen₂, hInv₂, hframe₂, hokB, _⟩ := linkRoot_spec hop hInv₁ hrb
          obtain ⟨hrB, hcompB⟩ := hokB rootB rfl
          subst hrB
          rw [← hab] at hrb
          have hbltF : b < F.length := by rw [← hlen₁]; exact hblt₁
          have hralt₂ : M.root a < F₂.length := by
            rw [hlen₂, hlen₁]; exact hInv.rootLt a halt
          obtain ⟨nodeB, hgb⟩ := get?_is_some hralt₂
          simp only [tryLink, hra, hrb, hgb] at h
          by_cases hraa : M.root a = a
          · rw [if_pos hraa] at h
            rw [Option.some_inj, Prod.mk.injEq] at h
            obtain ⟨hF, _⟩ := h
            subst hF
            have hgr : (F₂.set (M.root a)
                (⟨some (M.root a), nodeB.value⟩ : Node V))[M.root a]? =
                some ⟨some (M.root a), nodeB.value⟩ :=
              get?_set_self _ hralt₂
            refine ⟨⟨⟨some (M.root a), nodeB.value⟩, hgr, rfl⟩, ?_⟩
            intro n j hchain fuel₂
            exact tryEval_chain_cycle op hgr rfl j n hchain fuel₂
          · rw [if_neg hraa] at h
            have haltF₃ : a < (F₂.set (M.root a)
                (⟨some (M.root a), nodeB.value⟩ : Node V)).length := by
              rw [List.length_set, hlen₂, hlen₁]
              exact halt
            obtain ⟨nodeA₃, hga₃⟩ := get?_is_some haltF₃
            have hgb₃ : (F₂.set (M.root a)
                (⟨some (M.root a), nodeB.value⟩ : Node V))[M.root a]? =
                some ⟨some (M.root a), nodeB.value⟩ :=
              get?_set_self _ hralt₂
            obtain ⟨z, hz⟩ := hok nodeA₃.value nodeB.value
            simp only [hga₃, hgb₃, hz] at h
            rw [Option.some_inj, Prod.mk.injEq] at h
            obtain ⟨hF, _⟩ := h
            rw [List.set_set] at hF
            subst hF
            have hgr : (F₂.set (M.root a)
                (⟨some (M.root a), z⟩ : Node V))[M.root a]? =
                some ⟨some (M.root a), z⟩ :=
              get?_set_self _ hralt₂
            refine ⟨⟨⟨some (M.root a), z⟩, hgr, rfl⟩, ?_⟩
            intro n j hchain fuel₂
            exact tryEval_chain_cycle op hgr rfl j n hchain fuel₂

theorem c10_witness :
    tryEval addOp 5 [(⟨some 0, 3⟩ : Node Nat), ⟨some 0, 2⟩] 1 = none := by
  have hlink : tryLink addOp 1 [(⟨none, 1⟩ : Node Nat), ⟨some 0, 2⟩] 1 0 =
      some ([⟨some 0, 3⟩, ⟨some 0, 2⟩], Except.ok ()) := rfl
  have h := @c10_same_tree_link_diverges Nat Empty addOp addOp_assoc
    (fun x y => ⟨x + y, rfl⟩) 1 [(⟨none, 1⟩ : Node Nat), ⟨some 0, 2⟩]
    [(⟨some 0, 3⟩ : Node Nat), ⟨some 0, 2⟩]
    ⟨fun n => if n = 1 then 0 else n, fun m => if m = 0 then 1 else 2,
      fun n => if n = 1 then [2] else []⟩ 1 0 (Except.ok ())
    (inv_chain2 addOp 1 2) rfl hlink
  exact h.2 1 1 rfl 5
